import Mathlib

/-!
# CPM scheduling core: shallow embedding and verification

Shallow embedding of the Critical Path Method computation implemented in
`main.py` (`compute_cpm_and_export_pdf`).  Only the in-memory scheduling
computation is modelled: building the predecessor/successor adjacency from
the task rows, Kahn's topological sort, the forward pass (ES/EF), the
project duration, the backward pass (LS/LF), slack, and the longest-path
dynamic program that selects a single critical path.  The spreadsheet
parsing, Graphviz rendering and PDF layout are I/O wrappers outside the
core and are not modelled.

Python dictionaries are modelled as association lists (`dset` replaces in
place or appends, matching insertion-ordered dict assignment); Python's
builtin exceptions that the core can actually raise (`KeyError` from a
missing dict key, `ValueError` from `max()`/`min()` on an empty sequence)
are modelled with an `Except` monad.
-/

namespace CritPath

/-- One row of the input table: task identifier, duration, and the parsed
list of predecessor identifiers (`row['Predecessors']` split on commas). -/
structure Task where
  id : String
  duration : Int
  preds : List String
deriving DecidableEq

/-- Error kinds.  `keyError` and `valueError` model the Python builtin
exceptions the code can raise (`dict[k]` with a missing key, `max()`/`min()`
of an empty sequence).  `malformedGraphError` and `emptyInputError` are
Modelled from the spec: the error taxonomy of spec §7 (`MalformedGraphError`,
`EmptyInputError`); the code itself never raises them — they are present so
that the error-handling claims can be stated and compared with what the code
actually does. -/
inductive PyError where
  | keyError (k : String)
  | valueError
  | malformedGraphError
  | emptyInputError
deriving DecidableEq

/-- `tasks = df['Task'].tolist()`: the task identifiers in declaration order. -/
def taskIds (tasks : List Task) : List String :=
  tasks.map (·.id)

/-- `duration = dict(zip(df['Task'], df['Duration']))`.  A later duplicate id
overwrites an earlier one, hence the lookup of the last matching row.  The
`none` branch is unreachable at every call site (the argument is always the
id of some row), where Python would raise `KeyError`. -/
def duration (tasks : List Task) (t : String) : Int :=
  match tasks.reverse.find? (fun tk => tk.id == t) with
  | some tk => tk.duration
  | none => 0

/-- `predecessors[task] = preds` built row by row: a later duplicate id
overwrites, hence lookup of the last matching row.  The `none` branch is
unreachable at every call site (Python would raise `KeyError`). -/
def predecessors (tasks : List Task) (t : String) : List String :=
  match tasks.reverse.find? (fun tk => tk.id == t) with
  | some tk => tk.preds
  | none => []

/-- `successors = defaultdict(list)`; for each row `t` and each occurrence of
`p` in its predecessor list, `t.id` is appended to `successors[p]`.  A missing
key yields `[]` (defaultdict), so a total function is faithful. -/
def successors (tasks : List Task) (p : String) : List String :=
  tasks.foldl
    (fun acc tk => acc ++ (tk.preds.filter (fun q => q == p)).map (fun _ => tk.id))
    []

/-- `in_degree = {t: len(predecessors[t]) for t in tasks}`, as a total
function (only ever queried at task ids). -/
def initDegree (tasks : List Task) : String → Int :=
  fun t => (predecessors tasks t).length

/-- Body of `for succ in successors[node]: in_degree[succ] -= 1; if
in_degree[succ] == 0: queue.append(succ)`. -/
def kahnStep (st : (String → Int) × List String) (succ : String) :
    (String → Int) × List String :=
  let d := st.1 succ - 1
  ((fun x => if x = succ then d else st.1 x),
   if d = 0 then st.2 ++ [succ] else st.2)

/-- The `while queue:` loop of Kahn's algorithm.  The fuel argument bounds the
number of dequeues; every task id is enqueued at most once (its in-degree
decreases monotonically and crosses zero at most once, and initially-zero ids
are only seeded), so the Python loop performs at most `tasks.length`
iterations and fuel `tasks.length` reproduces it exactly. -/
def kahnLoop : Nat → (String → Int) → List String → List String →
    (List Task) → List String
  | 0, _, _, topo, _ => topo
  | _ + 1, _, [], topo, _ => topo
  | fuel + 1, deg, node :: rest, topo, tasks =>
      let st := (successors tasks node).foldl kahnStep (deg, rest)
      kahnLoop fuel st.1 st.2 (topo ++ [node]) tasks

/-- `topo_order` as computed by Kahn's algorithm: FIFO queue seeded with the
zero-in-degree task ids in declaration order. -/
def topoOrder (tasks : List Task) : List String :=
  kahnLoop tasks.length (initDegree tasks)
    ((taskIds tasks).filter (fun t => initDegree tasks t == 0)) [] tasks

/-- Dict lookup: value of the first (unique) matching key, if present. -/
def dlookup {α : Type} : List (String × α) → String → Option α
  | [], _ => none
  | kv :: rest, k => if kv.1 = k then some kv.2 else dlookup rest k

/-- Dict assignment `m[k] = v`: replace in place if the key is present,
append otherwise (insertion-ordered Python dict). -/
def dset {α : Type} : List (String × α) → String → α → List (String × α)
  | [], k, v => [(k, v)]
  | kv :: rest, k, v => if kv.1 = k then (k, v) :: rest else kv :: dset rest k v

/-- `m[k]` on a plain dict: `KeyError` when the key is absent. -/
def getItem {α : Type} (m : List (String × α)) (k : String) :
    Except PyError α :=
  match dlookup m k with
  | some v => Except.ok v
  | none => Except.error (PyError.keyError k)

/-- Python `max` over a sequence of ints: `ValueError` when empty. -/
def maxE : List Int → Except PyError Int
  | [] => Except.error PyError.valueError
  | x :: xs => Except.ok (xs.foldl (fun a b => if b > a then b else a) x)

/-- Python `min` over a sequence of ints: `ValueError` when empty. -/
def minE : List Int → Except PyError Int
  | [] => Except.error PyError.valueError
  | x :: xs => Except.ok (xs.foldl (fun a b => if b < a then b else a) x)

/-- Evaluation, in order, of the generator `(m[p] for p in l)`: the first
missing key raises `KeyError`. -/
def lookupAll (m : List (String × Int)) : List String → Except PyError (List Int)
  | [] => Except.ok []
  | p :: ps => do
      let v ← getItem m p
      let vs ← lookupAll m ps
      pure (v :: vs)

/-- State of the forward pass: the `ES` and `EF` dicts. -/
structure FwdState where
  ES : List (String × Int)
  EF : List (String × Int)
deriving DecidableEq

/-- One iteration of the forward pass: `ES[task] = 0` for a task with no
predecessors, else `max(EF[p] for p in predecessors[task])`; then
`EF[task] = ES[task] + duration[task]`. -/
def forwardStep (tasks : List Task) (st : FwdState) (task : String) :
    Except PyError FwdState := do
  let es ←
    if (predecessors tasks task).isEmpty then pure 0
    else do
      let efs ← lookupAll st.EF (predecessors tasks task)
      maxE efs
  let ef := es + duration tasks task
  pure ⟨dset st.ES task es, dset st.EF task ef⟩

/-- The forward pass over `topo_order`. -/
def forwardPass (tasks : List Task) (topo : List String) :
    Except PyError FwdState :=
  topo.foldlM (forwardStep tasks) ⟨[], []⟩

/-- `project_duration = max(EF.values())`. -/
def projectDurationE (ef : List (String × Int)) : Except PyError Int :=
  maxE (ef.map Prod.snd)

/-- State of the backward pass: the `LS` and `LF` dicts. -/
structure BwdState where
  LS : List (String × Int)
  LF : List (String × Int)
deriving DecidableEq

/-- One iteration of the backward pass: `LF[task] = project_duration` for a
task with no successors, else `min(LS[s] for s in successors[task])`; then
`LS[task] = LF[task] - duration[task]`. -/
def backwardStep (tasks : List Task) (pd : Int) (st : BwdState) (task : String) :
    Except PyError BwdState := do
  let lf ←
    if (successors tasks task).isEmpty then pure pd
    else do
      let lss ← lookupAll st.LS (successors tasks task)
      minE lss
  let ls := lf - duration tasks task
  pure ⟨dset st.LS task ls, dset st.LF task lf⟩

/-- The backward pass over `reversed(topo_order)`. -/
def backwardPass (tasks : List Task) (topo : List String) (pd : Int) :
    Except PyError BwdState :=
  topo.reverse.foldlM (backwardStep tasks pd) ⟨[], []⟩

/-- The comprehension `{t: LS[t] - ES[t] for t in tasks}`, element by element
in declaration order (`LS[t]` is evaluated before `ES[t]`). -/
def slackList (fwd : FwdState) (bwd : BwdState) :
    List String → Except PyError (List (String × Int))
  | [] => Except.ok []
  | t :: ts => do
      let ls ← getItem bwd.LS t
      let es ← getItem fwd.ES t
      let rest ← slackList fwd bwd ts
      pure ((t, ls - es) :: rest)

/-- `slack = {t: LS[t] - ES[t] for t in tasks}`. -/
def slackMap (tasks : List Task) (fwd : FwdState) (bwd : BwdState) :
    Except PyError (List (String × Int)) :=
  slackList fwd bwd (taskIds tasks)

/-- Value of `best_info[task]`: `(total_duration, node_count, path_list)`. -/
structure PathInfo where
  total : Int
  count : Nat
  path : List String
deriving DecidableEq

/-- The default `(0, 0, [])` of `best_info.get(p, (0, 0, []))`. -/
def defaultInfo : PathInfo := ⟨0, 0, []⟩

/-- Python tuple comparison `a > b` on the 2-tuples `info[:2]`. -/
def keyGt (a b : Int × Nat) : Bool :=
  a.1 > b.1 || (a.1 == b.1 && a.2 > b.2)

/-- The comparison key `best_info.get(p, (0, 0, []))[:2]`. -/
def infoKey (st : List (String × PathInfo)) (p : String) : Int × Nat :=
  let info := (dlookup st p).getD defaultInfo
  (info.total, info.count)

/-- Python `max(xs, key=...)` on a nonempty list `x :: xs`: keeps the current
maximum, replacing it only on a strictly greater key, hence returns the first
element attaining the maximum key. -/
def pyMaxBy (key : String → Int × Nat) (x : String) (xs : List String) : String :=
  xs.foldl (fun best p => if keyGt (key p) (key best) then p else best) x

/-- One iteration of the longest-path dynamic program:
`best_info[task] = (dur, 1, [task])` for a task with no predecessors,
otherwise extend the best path of the predecessor chosen by
`max(predecessors[task], key=lambda p: best_info.get(p, (0,0,[]))[:2])`. -/
def dpStep (tasks : List Task) (st : List (String × PathInfo)) (task : String) :
    List (String × PathInfo) :=
  let dur := duration tasks task
  match predecessors tasks task with
  | [] => dset st task ⟨dur, 1, [task]⟩
  | p :: ps =>
      let prev := pyMaxBy (infoKey st) p ps
      let info := (dlookup st prev).getD defaultInfo
      dset st task ⟨info.total + dur, info.count + 1, info.path ++ [task]⟩

/-- `best_info` after the dynamic program over `topo_order`. -/
def bestInfo (tasks : List Task) (topo : List String) :
    List (String × PathInfo) :=
  topo.foldl (dpStep tasks) []

/-- `end_tasks = [t for t in tasks if not successors[t]]`. -/
def endTasks (tasks : List Task) : List String :=
  (taskIds tasks).filter (fun t => (successors tasks t).isEmpty)

/-- Terminal selection: starting from `best_tuple = (0, 0)` and
`critical_path = []`, replace on a strictly greater `(total_duration,
node_count)` tuple, so the first terminal attaining the maximum wins. -/
def selectCritical (best : List (String × PathInfo)) (ends : List String) :
    List String :=
  (ends.foldl
    (fun (acc : (Int × Nat) × List String) t =>
      let info := (dlookup best t).getD defaultInfo
      if keyGt (info.total, info.count) acc.1 then ((info.total, info.count), info.path)
      else acc)
    ((0, 0), [])).2

/-- The computed schedule: everything the core derives from the task rows. -/
structure Schedule where
  topo : List String
  ES : List (String × Int)
  EF : List (String × Int)
  LS : List (String × Int)
  LF : List (String × Int)
  slack : List (String × Int)
  projectDuration : Int
  criticalPath : List String
deriving DecidableEq

/-- The whole scheduling core of `compute_cpm_and_export_pdf`, in the order
the Python executes it: topological sort, forward pass, project duration,
backward pass, slack, longest-path DP, terminal selection. -/
def computeSchedule (tasks : List Task) : Except PyError Schedule := do
  let topo := topoOrder tasks
  let fwd ← forwardPass tasks topo
  let pd ← projectDurationE fwd.EF
  let bwd ← backwardPass tasks topo pd
  let slack ← slackMap tasks fwd bwd
  let best := bestInfo tasks topo
  let crit := selectCritical best (endTasks tasks)
  pure ⟨topo, fwd.ES, fwd.EF, bwd.LS, bwd.LF, slack, pd, crit⟩

/-! ## Validity of the input and specification-side vocabulary

The spec (§3) requires: unique task identifiers, every referenced
predecessor identifier present in the task set, non-negative durations, and
an acyclic dependency graph.  The claims quantify over such inputs. -/

/-- The dependency edge `p → t`: some row declares `p` among the
predecessors of `t`. -/
def edgeRel (tasks : List Task) (p t : String) : Prop :=
  ∃ tk ∈ tasks, tk.id = t ∧ p ∈ tk.preds

/-- Acyclicity of the dependency graph, as well-foundedness of the edge
relation.  On a finite graph this is equivalent to the absence of a directed
cycle (see `acyclic_of_rank` and `Acyclic.not_edgeRel_self`). -/
def Acyclic (tasks : List Task) : Prop :=
  WellFounded (edgeRel tasks)

/-- The structural validity the spec demands of an input (§3): unique
identifiers, referential integrity of predecessor lists, acyclicity. -/
structure ValidInput (tasks : List Task) : Prop where
  nodupIds : (taskIds tasks).Nodup
  refsOk : ∀ tk ∈ tasks, ∀ p ∈ tk.preds, p ∈ taskIds tasks
  acyclic : Acyclic tasks

/-- Non-negative durations, the remaining data-model requirement of §3,
stated separately because only some claims depend on it. -/
def NonnegDurations (tasks : List Task) : Prop :=
  ∀ tk ∈ tasks, 0 ≤ tk.duration

/-- `v` is the maximum of the list `l` (membership plus upper bound). -/
def IsMaxOf (v : Int) (l : List Int) : Prop :=
  v ∈ l ∧ ∀ x ∈ l, x ≤ v

/-- `v` is the minimum of the list `l` (membership plus lower bound). -/
def IsMinOf (v : Int) (l : List Int) : Prop :=
  v ∈ l ∧ ∀ x ∈ l, v ≤ x

/-- Lexicographic `≤` on the `(total_duration, node_count)` comparison keys. -/
def lexLe (a b : Int × Nat) : Prop :=
  a.1 < b.1 ∨ (a.1 = b.1 ∧ a.2 ≤ b.2)

/-- Every predecessor of an element of `l` occurs strictly before it in `l`. -/
def PredsBeforeAt (tasks : List Task) (l : List String) : Prop :=
  ∀ l1 t l2, l = l1 ++ t :: l2 → ∀ p ∈ predecessors tasks t, p ∈ l1

/-- A root-to-`t` path: starts at a task with no declared predecessors and
follows dependency edges, ending at `t`. -/
inductive RootPath (tasks : List Task) : List String → String → Prop where
  | root (t : String) (ht : t ∈ taskIds tasks)
      (h : predecessors tasks t = []) : RootPath tasks [t] t
  | extend (P : List String) (p t : String) (hP : RootPath tasks P p)
      (ht : t ∈ taskIds tasks) (hp : p ∈ predecessors tasks t) :
      RootPath tasks (P ++ [t]) t

/-- A `t`-to-terminal path: starts at `t` and follows dependency edges,
ending at a task with no successors. -/
inductive TermPath (tasks : List Task) : String → List String → Prop where
  | term (t : String) (ht : t ∈ taskIds tasks)
      (h : successors tasks t = []) : TermPath tasks t [t]
  | extend (t s : String) (Q : List String) (hQ : TermPath tasks s Q)
      (ht : t ∈ taskIds tasks) (hs : s ∈ successors tasks t) :
      TermPath tasks t (t :: Q)

/-- A walk along successor edges from `t` to `z`; `S` lists the nodes
visited strictly after `t`. -/
inductive Walk (tasks : List Task) : String → List String → String → Prop where
  | nil (t : String) : Walk tasks t [] t
  | cons (t s : String) (S : List String) (z : String)
      (hs : s ∈ successors tasks t) (h : Walk tasks s S z) :
      Walk tasks t (s :: S) z

/-- A complete root-to-terminal path. -/
def FullPath (tasks : List Task) (P : List String) : Prop :=
  ∃ z, RootPath tasks P z ∧ successors tasks z = []

/-- Total duration of a path: the sum of the durations of its tasks. -/
def pathDur (tasks : List Task) (P : List String) : Int :=
  (P.map (duration tasks)).sum

/-- Total lookup in a schedule dict (all keys used by the theorems are
present; the default is never read). -/
def lookupD (m : List (String × Int)) (k : String) : Int :=
  (dlookup m k).getD 0

/-- The invariant of the `while queue:` loop: `topo` is the processed prefix,
`queue` the pending FIFO queue, `deg` the current in-degree table. -/
structure KahnInv (tasks : List Task) (fuel : Nat) (deg : String → Int)
    (queue topo : List String) : Prop where
  nodup : (topo ++ queue).Nodup
  mem_ids : ∀ t ∈ topo ++ queue, t ∈ taskIds tasks
  degEq : ∀ t, deg t
    = ((predecessors tasks t).countP (fun p => decide (p ∉ topo)) : Int)
  processed_le : ∀ t ∈ topo ++ queue, deg t ≤ 0
  zero_mem : ∀ t ∈ taskIds tasks, deg t = 0 → t ∈ topo ++ queue
  fuel_eq : fuel + topo.length = tasks.length
  before : PredsBeforeAt tasks topo

/-- What holds of the final `topo_order` list. -/
structure KahnPost (tasks : List Task) (result : List String) : Prop where
  nodup : result.Nodup
  sub : ∀ t ∈ result, t ∈ taskIds tasks
  before : PredsBeforeAt tasks result
  stuck : ∀ t ∈ taskIds tasks, t ∉ result →
    ∃ p ∈ predecessors tasks t, p ∉ result

/-- The structural facts about `topo_order` used by every later stage. -/
structure TopoFacts (tasks : List Task) : Prop where
  nodup : (topoOrder tasks).Nodup
  sub : ∀ t ∈ topoOrder tasks, t ∈ taskIds tasks
  complete : ∀ t ∈ taskIds tasks, t ∈ topoOrder tasks
  before : PredsBeforeAt tasks (topoOrder tasks)
  len : (topoOrder tasks).length = tasks.length

/-- Invariant of the forward-pass fold: `done` is the processed prefix of
`topo_order`; both dicts are keyed exactly by it, and the contract equations
of spec §4.2 hold for every processed task. -/
structure FwdInv (tasks : List Task) (done : List String) (st : FwdState) :
    Prop where
  keysES : st.ES.map Prod.fst = done
  keysEF : st.EF.map Prod.fst = done
  eqs : ∀ t ∈ done,
    dlookup st.EF t = some (lookupD st.ES t + duration tasks t) ∧
    (predecessors tasks t = [] → dlookup st.ES t = some 0) ∧
    (predecessors tasks t ≠ [] →
      IsMaxOf (lookupD st.ES t)
        ((predecessors tasks t).map (fun p => lookupD st.EF p)))

/-- Invariant of the backward-pass fold over `reversed(topo_order)`: `done`
is the processed part; the contract equations of spec §4.3 hold on it. -/
structure BwdInv (tasks : List Task) (pd : Int) (done : List String)
    (st : BwdState) : Prop where
  keysLS : st.LS.map Prod.fst = done
  keysLF : st.LF.map Prod.fst = done
  eqs : ∀ t ∈ done,
    dlookup st.LS t = some (lookupD st.LF t - duration tasks t) ∧
    (successors tasks t = [] → dlookup st.LF t = some pd) ∧
    (successors tasks t ≠ [] →
      IsMinOf (lookupD st.LF t)
        ((successors tasks t).map (fun s => lookupD st.LS s)))

/-- Invariant of the longest-path dynamic program over `topo_order`:
`done` is the processed prefix; every processed task has a `best_info`
entry built exactly as the source builds it. -/
structure DpInv (tasks : List Task) (done : List String)
    (best : List (String × PathInfo)) : Prop where
  keys : best.map Prod.fst = done
  eqs : ∀ t ∈ done, ∃ info : PathInfo,
    dlookup best t = some info ∧
    (predecessors tasks t = [] → info = ⟨duration tasks t, 1, [t]⟩) ∧
    (predecessors tasks t ≠ [] → ∃ l1 p l2,
      predecessors tasks t = l1 ++ p :: l2 ∧
      (∀ q ∈ l1, keyGt (infoKey best p) (infoKey best q) = true) ∧
      (∀ q ∈ predecessors tasks t,
        keyGt (infoKey best q) (infoKey best p) = false) ∧
      info = ⟨((dlookup best p).getD defaultInfo).total + duration tasks t,
              ((dlookup best p).getD defaultInfo).count + 1,
              ((dlookup best p).getD defaultInfo).path ++ [t]⟩)

/-! ## Dictionary lemmas -/

theorem dlookup_dset {α : Type} (m : List (String × α)) (k k' : String) (v : α) :
    dlookup (dset m k v) k' = if k' = k then some v else dlookup m k' := by
  induction m with
  | nil =>
      by_cases h : k' = k
      · simp [dset, dlookup, h]
      · simp only [dset, dlookup]
        rw [if_neg (fun hh : k = k' => h hh.symm), if_neg h]
  | cons kv rest ih =>
      by_cases hk : kv.1 = k
      · simp only [dset, if_pos hk, dlookup]
        by_cases h : k' = k
        · rw [if_pos h.symm, if_pos h]
        · rw [if_neg (fun hh : k = k' => h hh.symm), if_neg h,
            if_neg (fun hh : kv.1 = k' => h (hk ▸ hh).symm)]
      · simp only [dset, if_neg hk, dlookup]
        by_cases h : kv.1 = k'
        · rw [if_pos h, if_pos h,
            if_neg (fun hh : k' = k => hk (h.trans hh))]
        · rw [if_neg h, if_neg h, ih]

theorem dset_fresh {α : Type} (m : List (String × α)) (k : String) (v : α)
    (h : k ∉ m.map Prod.fst) : dset m k v = m ++ [(k, v)] := by
  induction m with
  | nil => simp [dset]
  | cons kv rest ih =>
      simp only [List.map_cons, List.mem_cons] at h
      push_neg at h
      simp only [dset]
      rw [if_neg (fun hh : kv.1 = k => h.1 hh.symm), ih h.2]
      simp

theorem map_fst_dset_fresh {α : Type} (m : List (String × α)) (k : String) (v : α)
    (h : k ∉ m.map Prod.fst) :
    (dset m k v).map Prod.fst = m.map Prod.fst ++ [k] := by
  rw [dset_fresh m k v h]; simp

theorem dlookup_eq_none {α : Type} (m : List (String × α)) (k : String)
    (h : k ∉ m.map Prod.fst) : dlookup m k = none := by
  induction m with
  | nil => rfl
  | cons kv rest ih =>
      simp only [List.map_cons, List.mem_cons] at h
      push_neg at h
      simp only [dlookup]
      rw [if_neg (fun hh : kv.1 = k => h.1 hh.symm)]
      exact ih h.2

theorem dlookup_isSome {α : Type} (m : List (String × α)) (k : String)
    (h : k ∈ m.map Prod.fst) : (dlookup m k).isSome := by
  induction m with
  | nil => simp at h
  | cons kv rest ih =>
      simp only [List.map_cons, List.mem_cons] at h
      simp only [dlookup]
      by_cases hk : kv.1 = k
      · simp [hk]
      · rw [if_neg hk]
        exact ih (h.resolve_left (fun hh => hk hh.symm))

/-- In a dict with distinct keys, the values are the lookups of the keys. -/
theorem map_snd_eq_map_lookupD (m : List (String × Int))
    (h : (m.map Prod.fst).Nodup) :
    m.map Prod.snd = (m.map Prod.fst).map (fun k => lookupD m k) := by
  induction m with
  | nil => rfl
  | cons kv rest ih =>
      simp only [List.map_cons, List.nodup_cons] at h
      simp only [List.map_cons]
      have h1 : lookupD (kv :: rest) kv.1 = kv.2 := by
        simp [lookupD, dlookup]
      have h2 : (rest.map Prod.fst).map (fun k => lookupD (kv :: rest) k)
          = (rest.map Prod.fst).map (fun k => lookupD rest k) := by
        apply List.map_congr_left
        intro a ha
        have hne : ¬ kv.1 = a := fun hh => h.1 (hh ▸ ha)
        simp [lookupD, dlookup, hne]
      rw [h1, h2, ← ih h.2]

theorem dlookup_mem_of_nodup (m : List (String × Int)) (k : String) (v : Int)
    (hm : (m.map Prod.fst).Nodup) (h : (k, v) ∈ m) : dlookup m k = some v := by
  induction m with
  | nil => simp at h
  | cons kv rest ih =>
      simp only [List.map_cons, List.nodup_cons] at hm
      rcases List.mem_cons.mp h with h1 | h1
      · subst h1; simp [dlookup]
      · have hne : ¬ kv.1 = k := fun hh =>
          hm.1 (hh ▸ (List.mem_map.mpr ⟨(k, v), h1, rfl⟩))
        simp only [dlookup]
        rw [if_neg hne]
        exact ih hm.2 h1

/-! ## `max`/`min` and lookup-sequence lemmas -/

theorem foldl_max_spec (x : Int) (xs : List Int) :
    (xs.foldl (fun a b => if b > a then b else a) x) ∈ x :: xs ∧
      ∀ y ∈ x :: xs, y ≤ xs.foldl (fun a b => if b > a then b else a) x := by
  induction xs generalizing x with
  | nil => simp
  | cons b bs ih =>
      simp only [List.foldl_cons]
      by_cases hb : b > x
      · rw [if_pos hb]
        obtain ⟨hmem, hle⟩ := ih b
        constructor
        · rcases List.mem_cons.mp hmem with h | h
          · rw [h]; exact List.mem_cons_of_mem _ (List.mem_cons_self _ _)
          · exact List.mem_cons_of_mem _ (List.mem_cons_of_mem _ h)
        · intro y hy
          rcases List.mem_cons.mp hy with h | h
          · rw [h]
            exact le_trans (le_of_lt hb) (hle b (List.mem_cons_self _ _))
          · exact hle y h
      · rw [if_neg hb]
        obtain ⟨hmem, hle⟩ := ih x
        constructor
        · rcases List.mem_cons.mp hmem with h | h
          · rw [h]; exact List.mem_cons_self _ _
          · exact List.mem_cons_of_mem _ (List.mem_cons_of_mem _ h)
        · intro y hy
          rcases List.mem_cons.mp hy with h | h
          · rw [h]; exact hle x (List.mem_cons_self _ _)
          · rcases List.mem_cons.mp h with h2 | h2
            · rw [h2]
              exact le_trans (le_of_not_lt hb) (hle x (List.mem_cons_self _ _))
            · exact hle y (List.mem_cons_of_mem _ h2)

theorem foldl_min_spec (x : Int) (xs : List Int) :
    (xs.foldl (fun a b => if b < a then b else a) x) ∈ x :: xs ∧
      ∀ y ∈ x :: xs, xs.foldl (fun a b => if b < a then b else a) x ≤ y := by
  induction xs generalizing x with
  | nil => simp
  | cons b bs ih =>
      simp only [List.foldl_cons]
      by_cases hb : b < x
      · rw [if_pos hb]
        obtain ⟨hmem, hle⟩ := ih b
        constructor
        · rcases List.mem_cons.mp hmem with h | h
          · rw [h]; exact List.mem_cons_of_mem _ (List.mem_cons_self _ _)
          · exact List.mem_cons_of_mem _ (List.mem_cons_of_mem _ h)
        · intro y hy
          rcases List.mem_cons.mp hy with h | h
          · rw [h]
            exact le_trans (hle b (List.mem_cons_self _ _)) (le_of_lt hb)
          · exact hle y h
      · rw [if_neg hb]
        obtain ⟨hmem, hle⟩ := ih x
        constructor
        · rcases List.mem_cons.mp hmem with h | h
          · rw [h]; exact List.mem_cons_self _ _
          · exact List.mem_cons_of_mem _ (List.mem_cons_of_mem _ h)
        · intro y hy
          rcases List.mem_cons.mp hy with h | h
          · rw [h]; exact hle x (List.mem_cons_self _ _)
          · rcases List.mem_cons.mp h with h2 | h2
            · rw [h2]
              exact le_trans (hle x (List.mem_cons_self _ _)) (le_of_not_lt hb)
            · exact hle y (List.mem_cons_of_mem _ h2)

theorem maxE_ok (l : List Int) (h : l ≠ []) :
    ∃ v, maxE l = Except.ok v ∧ IsMaxOf v l := by
  cases l with
  | nil => exact absurd rfl h
  | cons x xs =>
      refine ⟨_, rfl, ?_⟩
      exact foldl_max_spec x xs

theorem minE_ok (l : List Int) (h : l ≠ []) :
    ∃ v, minE l = Except.ok v ∧ IsMinOf v l := by
  cases l with
  | nil => exact absurd rfl h
  | cons x xs =>
      refine ⟨_, rfl, ?_⟩
      exact foldl_min_spec x xs

theorem getItem_ok {α : Type} (m : List (String × α)) (k : String) (v : α)
    (h : dlookup m k = some v) : getItem m k = Except.ok v := by
  simp [getItem, h]

theorem lookupAll_ok (m : List (String × Int)) (l : List String)
    (h : ∀ p ∈ l, (dlookup m p).isSome) :
    lookupAll m l = Except.ok (l.map (fun p => lookupD m p)) := by
  induction l with
  | nil => rfl
  | cons p ps ih =>
      have hp := h p (List.mem_cons_self _ _)
      obtain ⟨v, hv⟩ := Option.isSome_iff_exists.mp hp
      have hg : getItem m p = Except.ok v := getItem_ok m p v hv
      simp only [lookupAll, hg, ih (fun q hq => h q (List.mem_cons_of_mem _ hq)),
        List.map_cons]
      have hd : lookupD m p = v := by simp [lookupD, hv]
      rw [hd]
      rfl

/-! ## The lexicographic comparison key -/

theorem keyGt_iff (a b : Int × Nat) :
    keyGt a b = true ↔ (b.1 < a.1 ∨ (b.1 = a.1 ∧ b.2 < a.2)) := by
  simp only [keyGt, Bool.or_eq_true, Bool.and_eq_true, decide_eq_true_eq, beq_iff_eq,
    gt_iff_lt]
  constructor
  · rintro (h | ⟨h1, h2⟩)
    · exact Or.inl h
    · exact Or.inr ⟨h1.symm, h2⟩
  · rintro (h | ⟨h1, h2⟩)
    · exact Or.inl h
    · exact Or.inr ⟨h1.symm, h2⟩

theorem keyGt_eq_false_iff (a b : Int × Nat) :
    keyGt a b = false ↔ lexLe a b := by
  rw [← Bool.not_eq_true, keyGt_iff]
  unfold lexLe
  constructor <;> intro h <;> omega

theorem lexLe_refl (a : Int × Nat) : lexLe a a := by unfold lexLe; omega

theorem keyGt_trans {a b c : Int × Nat}
    (h1 : keyGt a b = true) (h2 : keyGt b c = true) : keyGt a c = true := by
  rw [keyGt_iff] at h1 h2 ⊢; omega

theorem lexLe_keyGt_trans {a b c : Int × Nat}
    (h1 : lexLe b a) (h2 : keyGt b c = true) : keyGt a c = true := by
  rw [keyGt_iff] at h2 ⊢; unfold lexLe at h1; omega

theorem keyGt_lexLe_trans {a b c : Int × Nat}
    (h1 : keyGt a b = true) (h2 : lexLe c b) : keyGt a c = true := by
  rw [keyGt_iff] at h1 ⊢; unfold lexLe at h2; omega

theorem lexLe_trans {a b c : Int × Nat}
    (h1 : lexLe a b) (h2 : lexLe b c) : lexLe a c := by
  unfold lexLe at *; omega

theorem lexLe_of_keyGt {a b : Int × Nat} (h : keyGt a b = true) : lexLe b a := by
  rw [keyGt_iff] at h; unfold lexLe; omega

theorem keyGt_self (a : Int × Nat) : keyGt a a = false := by
  rw [keyGt_eq_false_iff]; exact lexLe_refl a

/-- Python's `max(xs, key=f)` keeps the current value on ties, so it returns
the first element attaining the maximum key. -/
theorem pyMaxBy_spec (key : String → Int × Nat) (x : String) (xs : List String) :
    ∃ l1 l2, x :: xs = l1 ++ pyMaxBy key x xs :: l2 ∧
      (∀ q ∈ l1, keyGt (key (pyMaxBy key x xs)) (key q) = true) ∧
      (∀ q ∈ x :: xs, keyGt (key q) (key (pyMaxBy key x xs)) = false) := by
  unfold pyMaxBy
  induction xs generalizing x with
  | nil =>
      refine ⟨[], [], rfl, by simp, ?_⟩
      intro q hq
      rcases List.mem_cons.mp hq with h | h
      · rw [h, List.foldl_nil, keyGt_self]
      · simp at h
  | cons p ps ih =>
      rw [List.foldl_cons]
      by_cases hgt : keyGt (key p) (key x) = true
      · rw [if_pos hgt]
        obtain ⟨m1, m2, hdec, hl1, hall⟩ := ih p
        have hler : lexLe (key p) (key (ps.foldl
            (fun best q => if keyGt (key q) (key best) then q else best) p)) := by
          rw [← keyGt_eq_false_iff]
          exact hall p (List.mem_cons_self _ _)
        refine ⟨x :: m1, m2, by rw [List.cons_append, ← hdec], ?_, ?_⟩
        · intro q hq
          rcases List.mem_cons.mp hq with h | h
          · rw [h]
            exact lexLe_keyGt_trans hler hgt
          · exact hl1 q h
        · intro q hq
          rcases List.mem_cons.mp hq with h | h
          · rw [h, keyGt_eq_false_iff]
            exact lexLe_of_keyGt (lexLe_keyGt_trans hler hgt)
          · exact hall q h
      · have hgt' : keyGt (key p) (key x) = false := by
          rw [← Bool.not_eq_true]; exact hgt
        rw [hgt', if_neg Bool.false_ne_true]
        obtain ⟨m1, m2, hdec, hl1, hall⟩ := ih x
        cases m1 with
        | nil =>
            have hrx : ps.foldl
                (fun best q => if keyGt (key q) (key best) then q else best) x
                = x := by
              have h1 := hdec
              rw [List.nil_append] at h1
              exact (List.cons.injEq _ _ _ _ ▸ h1).1.symm
            refine ⟨[], p :: ps, by rw [hrx]; rfl, by simp, ?_⟩
            intro q hq
            rcases List.mem_cons.mp hq with h | h
            · rw [h, hrx]
              exact keyGt_self _
            · rcases List.mem_cons.mp h with h2 | h2
              · rw [h2, hrx]
                exact hgt'
              · rw [hrx]
                have h3 := hall q (List.mem_cons_of_mem _ h2)
                rw [hrx] at h3
                exact h3
        | cons hd m1' =>
            have hdx : hd = x ∧ ps = m1' ++ (ps.foldl
                (fun best q => if keyGt (key q) (key best) then q else best) x)
                :: m2 := by
              have h1 := hdec
              rw [List.cons_append] at h1
              exact ⟨(List.cons.injEq _ _ _ _ ▸ h1).1.symm,
                (List.cons.injEq _ _ _ _ ▸ h1).2⟩
            have hbx : keyGt (key (ps.foldl
                (fun best q => if keyGt (key q) (key best) then q else best) x))
                (key x) = true := by
              apply hl1
              rw [hdx.1]
              exact List.mem_cons_self _ _
            refine ⟨x :: p :: m1', m2,
              by rw [List.cons_append, List.cons_append, ← hdx.2], ?_, ?_⟩
            · intro q hq
              rcases List.mem_cons.mp hq with h | h
              · rw [h]
                exact hbx
              · rcases List.mem_cons.mp h with h2 | h2
                · rw [h2]
                  exact keyGt_lexLe_trans hbx ((keyGt_eq_false_iff _ _).mp hgt')
                · exact hl1 q (by rw [hdx.1]; exact List.mem_cons_of_mem _ h2)
            · intro q hq
              rcases List.mem_cons.mp hq with h | h
              · rw [h]
                exact hall x (List.mem_cons_self _ _)
              · rcases List.mem_cons.mp h with h2 | h2
                · rw [h2, keyGt_eq_false_iff]
                  refine lexLe_trans ?_ (lexLe_of_keyGt hbx)
                  rw [← keyGt_eq_false_iff]
                  exact hgt'
                · exact hall q (List.mem_cons_of_mem _ h2)

/-! ## Adjacency lemmas -/

theorem mem_predecessors {tasks : List Task} {t p : String}
    (h : p ∈ predecessors tasks t) :
    ∃ tk ∈ tasks, tk.id = t ∧ p ∈ tk.preds := by
  unfold predecessors at h
  cases hf : tasks.reverse.find? (fun tk => tk.id == t) with
  | none => rw [hf] at h; simp at h
  | some tk =>
      rw [hf] at h
      refine ⟨tk, ?_, ?_, h⟩
      · exact List.mem_reverse.mp (List.mem_of_find?_eq_some hf)
      · have := List.find?_some hf
        exact beq_iff_eq.mp this

theorem id_injective {tasks : List Task} (hnd : (taskIds tasks).Nodup)
    {tk tk' : Task} (h1 : tk ∈ tasks) (h2 : tk' ∈ tasks) (h : tk.id = tk'.id) :
    tk = tk' :=
  List.inj_on_of_nodup_map hnd h1 h2 h

theorem predecessors_eq_of_mem {tasks : List Task} {tk : Task}
    (hnd : (taskIds tasks).Nodup) (hmem : tk ∈ tasks) :
    predecessors tasks tk.id = tk.preds := by
  unfold predecessors
  have hsome : (tasks.reverse.find? (fun tk' => tk'.id == tk.id)).isSome := by
    rw [List.find?_isSome]
    exact ⟨tk, List.mem_reverse.mpr hmem, by simp⟩
  obtain ⟨tk', hf⟩ := Option.isSome_iff_exists.mp hsome
  rw [hf]
  show tk'.preds = tk.preds
  have hid : tk'.id = tk.id := by
    have hb := List.find?_some hf
    simpa using hb
  have hmem' : tk' ∈ tasks := List.mem_reverse.mp (List.mem_of_find?_eq_some hf)
  rw [id_injective hnd hmem' hmem hid]

theorem duration_eq_of_mem {tasks : List Task} {tk : Task}
    (hnd : (taskIds tasks).Nodup) (hmem : tk ∈ tasks) :
    duration tasks tk.id = tk.duration := by
  unfold duration
  have hsome : (tasks.reverse.find? (fun tk' => tk'.id == tk.id)).isSome := by
    rw [List.find?_isSome]
    exact ⟨tk, List.mem_reverse.mpr hmem, by simp⟩
  obtain ⟨tk', hf⟩ := Option.isSome_iff_exists.mp hsome
  rw [hf]
  show tk'.duration = tk.duration
  have hid : tk'.id = tk.id := by
    have hb := List.find?_some hf
    simpa using hb
  have hmem' : tk' ∈ tasks := List.mem_reverse.mp (List.mem_of_find?_eq_some hf)
  rw [id_injective hnd hmem' hmem hid]

theorem predecessors_eq_nil_of_not_mem {tasks : List Task} {t : String}
    (h : t ∉ taskIds tasks) : predecessors tasks t = [] := by
  unfold predecessors
  cases hf : tasks.reverse.find? (fun tk => tk.id == t) with
  | none => rfl
  | some tk =>
      exfalso
      apply h
      have hid : tk.id = t := by
        have hb := List.find?_some hf
        simpa using hb
      have hmem : tk ∈ tasks := List.mem_reverse.mp (List.mem_of_find?_eq_some hf)
      exact hid ▸ List.mem_map.mpr ⟨tk, hmem, rfl⟩

theorem successors_foldl_generalize (tasks : List Task) (p : String)
    (acc : List String) :
    tasks.foldl
      (fun acc tk => acc ++ (tk.preds.filter (fun q => q == p)).map (fun _ => tk.id))
      acc
    = acc ++ successors tasks p := by
  induction tasks generalizing acc with
  | nil => simp [successors]
  | cons tk rest ih =>
      simp only [successors, List.foldl_cons, List.nil_append]
      rw [ih, ih ((tk.preds.filter (fun q => q == p)).map (fun _ => tk.id))]
      simp [List.append_assoc]

theorem successors_cons (tk : Task) (rest : List Task) (p : String) :
    successors (tk :: rest) p
      = (tk.preds.filter (fun q => q == p)).map (fun _ => tk.id)
        ++ successors rest p := by
  show (tk :: rest).foldl _ [] = _
  rw [List.foldl_cons]
  rw [successors_foldl_generalize]
  simp

theorem mem_successors_iff {tasks : List Task} {p t : String} :
    t ∈ successors tasks p ↔ ∃ tk ∈ tasks, tk.id = t ∧ p ∈ tk.preds := by
  induction tasks with
  | nil => simp [successors]
  | cons tk rest ih =>
      rw [successors_cons]
      simp only [List.mem_append, ih, List.mem_map, List.mem_filter, List.mem_cons]
      constructor
      · rintro (⟨q, ⟨hq, hqp⟩, rfl⟩ | ⟨tk', h1, h2, h3⟩)
        · exact ⟨tk, Or.inl rfl, rfl, (beq_iff_eq.mp hqp) ▸ hq⟩
        · exact ⟨tk', Or.inr h1, h2, h3⟩
      · rintro ⟨tk', h1 | h1, h2, h3⟩
        · subst h1
          exact Or.inl ⟨p, ⟨h3, by simp⟩, h2⟩
        · exact Or.inr ⟨tk', h1, h2, h3⟩

theorem mem_successors_sub_ids {tasks : List Task} {p t : String}
    (h : t ∈ successors tasks p) : t ∈ taskIds tasks := by
  obtain ⟨tk, h1, h2, _⟩ := mem_successors_iff.mp h
  exact h2 ▸ List.mem_map.mpr ⟨tk, h1, rfl⟩

theorem mem_successors_iff_mem_predecessors {tasks : List Task}
    (hnd : (taskIds tasks).Nodup) {t s : String} :
    s ∈ successors tasks t ↔ s ∈ taskIds tasks ∧ t ∈ predecessors tasks s := by
  rw [mem_successors_iff]
  constructor
  · rintro ⟨tk, h1, h2, h3⟩
    subst h2
    exact ⟨List.mem_map.mpr ⟨tk, h1, rfl⟩, (predecessors_eq_of_mem hnd h1) ▸ h3⟩
  · rintro ⟨h1, h2⟩
    obtain ⟨tk, hmem, rfl⟩ := List.mem_map.mp h1
    exact ⟨tk, hmem, rfl, (predecessors_eq_of_mem hnd hmem) ▸ h2⟩

theorem edgeRel_of_mem_predecessors {tasks : List Task} {t p : String}
    (h : p ∈ predecessors tasks t) : edgeRel tasks p t :=
  mem_predecessors h

theorem mem_ids_of_mem_predecessors {tasks : List Task} {t p : String}
    (href : ∀ tk ∈ tasks, ∀ q ∈ tk.preds, q ∈ taskIds tasks)
    (h : p ∈ predecessors tasks t) : p ∈ taskIds tasks := by
  obtain ⟨tk, h1, _, h3⟩ := mem_predecessors h
  exact href tk h1 p h3

/-- A ranking function certifies acyclicity; this lets a concrete input's
`Acyclic` obligation be discharged by `decide` on finitely many rows. -/
theorem acyclic_of_rank (tasks : List Task) (f : String → Nat)
    (h : ∀ tk ∈ tasks, ∀ p ∈ tk.preds, f p < f tk.id) : Acyclic tasks := by
  have hsub : Subrelation (edgeRel tasks) (InvImage (· < ·) f) := by
    rintro p t ⟨tk, h1, h2, h3⟩
    exact h2 ▸ h tk h1 p h3
  exact Subrelation.wf hsub (InvImage.wf f (Nat.lt_wfRel.wf))

theorem Acyclic.not_edgeRel_self {tasks : List Task} (h : Acyclic tasks)
    (t : String) : ¬ edgeRel tasks t t := by
  intro he
  exact WellFounded.asymmetric h t t he he

/-! ## Counting lemmas for Kahn's algorithm -/

theorem beq_false_of_ne {a b : String} (h : ¬ a = b) : (a == b) = false := by
  cases hb : a == b with
  | false => rfl
  | true => exact absurd (beq_iff_eq.mp hb) h

theorem count_map_const (l : List String) (c x : String) :
    ((l.map (fun _ => c)).count x) = if c = x then l.length else 0 := by
  induction l with
  | nil => simp
  | cons b bs ih =>
      simp only [List.map_cons, List.count_cons, ih]
      by_cases h : c = x <;> simp [h]

theorem count_eq_length_filter_beq (l : List String) (x : String) :
    l.count x = (l.filter (fun q => q == x)).length := by
  induction l with
  | nil => simp
  | cons b bs ih =>
      simp only [List.count_cons, List.filter_cons]
      by_cases h : b = x
      · subst h; simp [ih]
      · have h1 : (b == x) = false := beq_false_of_ne h
        simp [h1, ih]

theorem count_successors_of_mem {tasks : List Task}
    (hnd : (taskIds tasks).Nodup) {tk : Task} (hmem : tk ∈ tasks) (node : String) :
    (successors tasks node).count tk.id = tk.preds.count node := by
  induction tasks with
  | nil => simp at hmem
  | cons hd rest ih =>
      have hnd' : (taskIds rest).Nodup := (List.nodup_cons.mp hnd).2
      have hhd : hd.id ∉ taskIds rest := (List.nodup_cons.mp hnd).1
      rw [successors_cons, List.count_append]
      rcases List.mem_cons.mp hmem with h | h
      · subst h
        have h1 : (successors rest node).count tk.id = 0 := by
          rw [List.count_eq_zero]
          intro hc
          exact hhd (mem_successors_sub_ids hc)
        rw [h1, count_map_const, if_pos rfl, count_eq_length_filter_beq]
        omega
      · have hne : ¬ hd.id = tk.id := by
          intro hh
          exact hhd (hh ▸ List.mem_map.mpr ⟨tk, h, rfl⟩)
        rw [count_map_const, if_neg hne, ih hnd' h]
        simp

theorem count_successors {tasks : List Task} (hnd : (taskIds tasks).Nodup)
    (node t : String) :
    (successors tasks node).count t = (predecessors tasks t).count node := by
  by_cases h : t ∈ taskIds tasks
  · obtain ⟨tk, hmem, rfl⟩ := List.mem_map.mp h
    rw [count_successors_of_mem hnd hmem, predecessors_eq_of_mem hnd hmem]
  · have h1 : (successors tasks node).count t = 0 := by
      rw [List.count_eq_zero]
      intro hc
      exact h (mem_successors_sub_ids hc)
    rw [h1, predecessors_eq_nil_of_not_mem h]
    simp

theorem countP_notMem_append (l topo : List String) (node : String)
    (hnode : node ∉ topo) :
    l.countP (fun p => decide (p ∉ topo)) =
      l.countP (fun p => decide (p ∉ topo ++ [node])) + l.count node := by
  induction l with
  | nil => simp
  | cons a as ih =>
      by_cases ha : a = node
      · rw [ha]
        have h1 : (decide (node ∉ topo ++ [node])) = false := by simp
        have h2 : (decide (node ∉ topo)) = true := by simp [hnode]
        have h3 : (node :: as).count node = as.count node + 1 := by
          rw [List.count_cons]; simp
        rw [h3, List.countP_cons, List.countP_cons, h1, h2, ih]
        simp
        omega
      · have h1 : decide (a ∉ topo ++ [node]) = decide (a ∉ topo) :=
          decide_eq_decide.mpr (by simp [List.mem_append, ha])
        have h2 : (a :: as).count node = as.count node := by
          rw [List.count_cons]
          simp [beq_false_of_ne ha]
        rw [h2, List.countP_cons, List.countP_cons, h1, ih]
        omega

/-! ## The inner decrement loop of Kahn's algorithm -/

theorem foldl_kahnStep_deg (S : List String) (deg : String → Int)
    (q : List String) (t : String) :
    (S.foldl kahnStep (deg, q)).1 t = deg t - S.count t := by
  induction S generalizing deg q with
  | nil => simp
  | cons s ss ih =>
      rw [List.foldl_cons, ih, List.count_cons]
      simp only [kahnStep]
      by_cases h : t = s
      · subst h
        simp
        omega
      · have h2 : (s == t) = false := beq_false_of_ne (fun hh => h hh.symm)
        simp [h, h2]

theorem foldl_kahnStep_queue (S : List String) (deg : String → Int)
    (q : List String) :
    ∃ newly, (S.foldl kahnStep (deg, q)).2 = q ++ newly ∧ newly.Nodup ∧
      ∀ t, t ∈ newly ↔ (t ∈ S ∧ 1 ≤ deg t ∧ deg t ≤ S.count t) := by
  induction S generalizing deg q with
  | nil => exact ⟨[], by simp, List.nodup_nil, by simp⟩
  | cons s ss ih =>
      rw [List.foldl_cons]
      set deg' := fun x => if x = s then deg s - 1 else deg x with hdeg'
      have hdegs : deg' s = deg s - 1 := by simp [hdeg']
      have hdegt : ∀ t, ¬ t = s → deg' t = deg t := by
        intro t ht; rw [hdeg']; simp [ht]
      have hcnt_s : ((s :: ss).count s : Int) = (ss.count s : Int) + 1 := by
        rw [List.count_cons]; simp
      have hcnt_t : ∀ t, ¬ t = s → ((s :: ss).count t : Int) = (ss.count t : Int) := by
        intro t ht
        rw [List.count_cons]
        have hb : (s == t) = false := beq_false_of_ne (fun hh => ht hh.symm)
        simp [hb]
      by_cases hs : deg s - 1 = 0
      case pos =>
        have hq : kahnStep (deg, q) s = (deg', q ++ [s]) := by
          simp [kahnStep, hs, hdeg']
        rw [hq]
        obtain ⟨newly, he, hnd, hmem⟩ := ih deg' (q ++ [s])
        refine ⟨s :: newly, by rw [he]; simp, ?_, ?_⟩
        · rw [List.nodup_cons]
          refine ⟨?_, hnd⟩
          intro hc
          have hc2 := (hmem s).mp hc
          rw [hdegs] at hc2
          omega
        · intro t
          rw [List.mem_cons, hmem t]
          by_cases ht : t = s
          · rw [ht, hdegs]
            constructor
            · intro _
              refine ⟨List.mem_cons_self _ _, by omega, ?_⟩
              rw [hcnt_s]; omega
            · intro _
              exact Or.inl rfl
          · rw [hdegt t ht, hcnt_t t ht]
            constructor
            · rintro (h | h)
              · exact absurd h ht
              · exact ⟨List.mem_cons_of_mem _ h.1, h.2.1, h.2.2⟩
            · rintro ⟨h1, h2', h3⟩
              exact Or.inr ⟨(List.mem_cons.mp h1).resolve_left ht, h2', h3⟩
      case neg =>
        have hq : kahnStep (deg, q) s = (deg', q) := by
          simp [kahnStep, hs, hdeg']
        rw [hq]
        obtain ⟨newly, he, hnd, hmem⟩ := ih deg' q
        refine ⟨newly, he, hnd, ?_⟩
        intro t
        rw [hmem t]
        by_cases ht : t = s
        · rw [ht, hdegs]
          constructor
          · rintro ⟨h1, h2', h3⟩
            refine ⟨List.mem_cons_self _ _, by omega, ?_⟩
            rw [hcnt_s]; omega
          · rintro ⟨h1, h3, h4⟩
            rw [hcnt_s] at h4
            have hcnt : 0 < ss.count s := by omega
            exact ⟨List.count_pos_iff.mp hcnt, by omega, by omega⟩
        · rw [hdegt t ht, hcnt_t t ht]
          constructor
          · rintro ⟨h1, h2', h3⟩
            exact ⟨List.mem_cons_of_mem _ h1, h2', h3⟩
          · rintro ⟨h1, h2', h3⟩
            exact ⟨(List.mem_cons.mp h1).resolve_left ht, h2', h3⟩

/-! ## The Kahn loop invariant -/

theorem mem_of_subset_of_length_le {l1 l2 : List String} (h1 : l1.Nodup)
    (h2 : l2.Nodup) (hsub : ∀ x ∈ l1, x ∈ l2) (hlen : l2.length ≤ l1.length) :
    ∀ x ∈ l2, x ∈ l1 := by
  intro x hx
  have hs : l1.toFinset ⊆ l2.toFinset := by
    intro a ha
    rw [List.mem_toFinset] at *
    exact hsub a ha
  have hc2 : l2.toFinset.card = l2.length := List.toFinset_card_of_nodup h2
  have hc1 : l1.toFinset.card = l1.length := List.toFinset_card_of_nodup h1
  have heq : l1.toFinset = l2.toFinset :=
    Finset.eq_of_subset_of_card_le hs (by omega)
  rw [← List.mem_toFinset, heq, List.mem_toFinset]
  exact hx

theorem append_singleton_decomp {l l1 l2 : List String} {t x : String}
    (h : l ++ [x] = l1 ++ t :: l2) :
    (l2 = [] ∧ t = x ∧ l1 = l) ∨ ∃ l2', l2 = l2' ++ [x] ∧ l = l1 ++ t :: l2' := by
  rcases List.eq_nil_or_concat l2 with h2 | ⟨L, b, h2⟩
  · subst h2
    have hinj := List.append_inj' h (by simp)
    have hxt : x = t := by
      have h2 := hinj.2
      simpa using h2
    exact Or.inl ⟨rfl, hxt.symm, hinj.1.symm⟩
  · subst h2
    rw [List.concat_eq_append] at h
    have h' : l ++ [x] = (l1 ++ t :: L) ++ [b] := by
      rw [h]; simp
    have hinj := List.append_inj' h' (by simp)
    have hxb : x = b := by
      have h2 := hinj.2
      simpa using h2
    exact Or.inr ⟨L, by rw [List.concat_eq_append, hxb], hinj.1⟩

theorem kahnPost_of_stopped {tasks : List Task} {deg : String → Int}
    {topo : List String}
    (hnodup : topo.Nodup) (hsub : ∀ t ∈ topo, t ∈ taskIds tasks)
    (hbefore : PredsBeforeAt tasks topo)
    (hdeg : ∀ t, deg t
      = ((predecessors tasks t).countP (fun p => decide (p ∉ topo)) : Int))
    (hzero : ∀ t ∈ taskIds tasks, deg t = 0 → t ∈ topo) :
    KahnPost tasks topo := by
  refine ⟨hnodup, hsub, hbefore, ?_⟩
  intro t ht htn
  have hdt : deg t ≠ 0 := fun h => htn (hzero t ht h)
  rw [hdeg t] at hdt
  have hpos : 0 < (predecessors tasks t).countP (fun p => decide (p ∉ topo)) := by
    omega
  obtain ⟨p, hp, hpd⟩ := List.countP_pos_iff.mp hpos
  exact ⟨p, hp, of_decide_eq_true hpd⟩

theorem kahnLoop_post (tasks : List Task) (hnd : (taskIds tasks).Nodup) :
    ∀ (fuel : Nat) (deg : String → Int) (queue topo : List String),
      KahnInv tasks fuel deg queue topo →
      KahnPost tasks (kahnLoop fuel deg queue topo tasks) := by
  intro fuel
  induction fuel with
  | zero =>
      intro deg queue topo hinv
      show KahnPost tasks topo
      have hnodup : topo.Nodup := (List.nodup_append.mp hinv.nodup).1
      have hsub : ∀ t ∈ topo, t ∈ taskIds tasks := fun t ht =>
        hinv.mem_ids t (List.mem_append.mpr (Or.inl ht))
      refine ⟨hnodup, hsub, hinv.before, ?_⟩
      -- fuel exhausted means the processed prefix already has full length,
      -- so it contains every task id
      intro t ht htn
      exfalso
      apply htn
      have hlen : topo.length = tasks.length := by
        have := hinv.fuel_eq
        omega
      have hids : (taskIds tasks).length = tasks.length := List.length_map _ _
      exact mem_of_subset_of_length_le hnodup hnd hsub (by omega) t ht
  | succ fuel ih =>
      intro deg queue topo hinv
      cases queue with
      | nil =>
          show KahnPost tasks topo
          have hnodup : topo.Nodup := by
            have := hinv.nodup
            simpa using this
          have hsub : ∀ t ∈ topo, t ∈ taskIds tasks := fun t ht =>
            hinv.mem_ids t (List.mem_append.mpr (Or.inl ht))
          refine kahnPost_of_stopped hnodup hsub hinv.before hinv.degEq ?_
          intro t ht hz
          have := hinv.zero_mem t ht hz
          simpa using this
      | cons node rest =>
          show KahnPost tasks
            (kahnLoop fuel
              ((successors tasks node).foldl kahnStep (deg, rest)).1
              ((successors tasks node).foldl kahnStep (deg, rest)).2
              (topo ++ [node]) tasks)
          obtain ⟨newly, hq2, hnnd, hnmem⟩ :=
            foldl_kahnStep_queue (successors tasks node) deg rest
          have hdeg1 : ∀ t,
              ((successors tasks node).foldl kahnStep (deg, rest)).1 t
                = deg t - (successors tasks node).count t := fun t =>
            foldl_kahnStep_deg (successors tasks node) deg rest t
          -- facts about the dequeued node
          have hnode_mem : node ∈ topo ++ node :: rest := by simp
          have hnode_id : node ∈ taskIds tasks := hinv.mem_ids node hnode_mem
          have hnode_le : deg node ≤ 0 := hinv.processed_le node hnode_mem
          have hnode_preds : ∀ p ∈ predecessors tasks node, p ∈ topo := by
            have hz : (predecessors tasks node).countP
                (fun p => decide (p ∉ topo)) = 0 := by
              have := hinv.degEq node
              omega
            intro p hp
            have hnp := List.countP_eq_zero.mp hz p hp
            by_contra hc
            exact hnp (decide_eq_true hc)
          have hnode_notin_topo : node ∉ topo := by
            have hnd2 := hinv.nodup
            rw [List.nodup_append] at hnd2
            intro hc
            exact hnd2.2.2 hc (List.mem_cons_self _ _)
          -- old members keep nonpositive degree, new members are successors
          have hnewly_sub : ∀ t ∈ newly, t ∈ successors tasks node :=
            fun t htm => ((hnmem t).mp htm).1
          have hnewly_pos : ∀ t ∈ newly, 1 ≤ deg t := fun t htm =>
            ((hnmem t).mp htm).2.1
          have hnewly_notold : ∀ t ∈ newly, t ∉ topo ++ node :: rest := by
            intro t htm hc
            have h1 := hinv.processed_le t hc
            have h2 := hnewly_pos t htm
            omega
          have hold_assoc : topo ++ node :: rest = (topo ++ [node]) ++ rest := by
            simp
          apply ih
          constructor
          case nodup =>
            rw [hq2]
            have h1 : ((topo ++ [node]) ++ rest).Nodup := by
              rw [← hold_assoc]; exact hinv.nodup
            have h2 : List.Disjoint ((topo ++ [node]) ++ rest) newly := by
              intro a ha hb
              exact hnewly_notold a hb (by rw [hold_assoc]; exact ha)
            have h3 := List.Nodup.append h1 hnnd h2
            simpa [List.append_assoc] using h3
          case mem_ids =>
            intro t htm
            rw [hq2] at htm
            simp only [List.mem_append, List.mem_cons, List.not_mem_nil,
              or_false] at htm
            rcases htm with (h | h) | (h | h)
            · exact hinv.mem_ids t (List.mem_append.mpr (Or.inl h))
            · exact h ▸ hnode_id
            · exact hinv.mem_ids t
                (List.mem_append.mpr (Or.inr (List.mem_cons_of_mem _ h)))
            · exact mem_successors_sub_ids (hnewly_sub t h)
          case degEq =>
            intro t
            rw [hdeg1 t, hinv.degEq t, count_successors hnd node t]
            have hc := countP_notMem_append (predecessors tasks t) topo node
              hnode_notin_topo
            omega
          case processed_le =>
            intro t htm
            rw [hq2] at htm
            rw [hdeg1 t]
            simp only [List.mem_append, List.mem_cons, List.not_mem_nil,
              or_false] at htm
            have hcnt : (0 : Int) ≤ (successors tasks node).count t := by
              positivity
            rcases htm with (h | h) | (h | h)
            · have h1 := hinv.processed_le t (List.mem_append.mpr (Or.inl h))
              omega
            · have h1 := hinv.processed_le node hnode_mem
              rw [h]
              omega
            · have h1 := hinv.processed_le t
                (List.mem_append.mpr (Or.inr (List.mem_cons_of_mem _ h)))
              omega
            · have h1 := ((hnmem t).mp h).2.2
              omega
          case zero_mem =>
            intro t hid hz
            rw [hdeg1 t] at hz
            rw [hq2]
            simp only [List.mem_append, List.mem_cons, List.not_mem_nil,
              or_false]
            by_cases hdt : deg t = 0
            · have hold := hinv.zero_mem t hid hdt
              simp only [List.mem_append, List.mem_cons] at hold
              rcases hold with h | (h | h)
              · exact Or.inl (Or.inl h)
              · exact Or.inl (Or.inr h)
              · exact Or.inr (Or.inl h)
            · -- the degree just crossed zero, so t was enqueued
              have hpos : 1 ≤ deg t := by
                have hd := hinv.degEq t
                omega
              have hmemS : t ∈ successors tasks node :=
                List.count_pos_iff.mp (by omega)
              exact Or.inr (Or.inr ((hnmem t).mpr ⟨hmemS, hpos, by omega⟩))
          case fuel_eq =>
            have hf := hinv.fuel_eq
            simp only [List.length_append, List.length_cons, List.length_nil]
            omega
          case before =>
            intro l1 t l2 hdec p hp
            rcases append_singleton_decomp hdec with ⟨-, h2, h3⟩ | ⟨l2', -, h2⟩
            · rw [h2] at hp
              rw [h3]
              exact hnode_preds p hp
            · exact hinv.before l1 t l2' h2 p hp

theorem topoOrder_kahnPost (tasks : List Task)
    (hnd : (taskIds tasks).Nodup) : KahnPost tasks (topoOrder tasks) := by
  apply kahnLoop_post tasks hnd
  refine ⟨?_, ?_, ?_, ?_, ?_, ?_, ?_⟩
  · -- nodup
    simp only [List.nil_append]
    exact List.Nodup.filter _ hnd
  · -- membership in ids
    intro t htm
    simp only [List.nil_append] at htm
    exact List.mem_of_mem_filter htm
  · -- initial degrees
    intro t
    unfold initDegree
    have h1 : (predecessors tasks t).countP
        (fun p => decide (p ∉ ([] : List String)))
        = (predecessors tasks t).length := by
      rw [List.countP_eq_length]
      intro a _
      simp
    rw [h1]
  · -- seeds have degree zero
    intro t htm
    simp only [List.nil_append] at htm
    have h1 := (List.mem_filter.mp htm).2
    have h2 : initDegree tasks t = 0 := by
      have h3 := of_decide_eq_true h1
      simpa using h3
    omega
  · -- all degree-zero ids are seeded
    intro t hid hz
    simp only [List.nil_append]
    apply List.mem_filter.mpr
    refine ⟨hid, ?_⟩
    simp [hz]
  · -- fuel matches
    simp
  · -- empty prefix is vacuously ordered
    intro l1 t l2 hdec
    exact absurd hdec (by simp)

theorem topoOrder_complete (tasks : List Task) (hv : ValidInput tasks) :
    ∀ t ∈ taskIds tasks, t ∈ topoOrder tasks := by
  have hpost := topoOrder_kahnPost tasks hv.nodupIds
  intro t
  refine @WellFounded.induction String (edgeRel tasks) hv.acyclic
    (fun u => u ∈ taskIds tasks → u ∈ topoOrder tasks) t ?_
  intro x ihx hx
  by_contra hc
  obtain ⟨p, hp, hpn⟩ := hpost.stuck x hx hc
  have hep : edgeRel tasks p x := edgeRel_of_mem_predecessors hp
  have hpid : p ∈ taskIds tasks := mem_ids_of_mem_predecessors hv.refsOk hp
  exact hpn (ihx p hep hpid)

theorem topoFacts (tasks : List Task) (hv : ValidInput tasks) :
    TopoFacts tasks := by
  have hpost := topoOrder_kahnPost tasks hv.nodupIds
  have hcomp := topoOrder_complete tasks hv
  refine ⟨hpost.nodup, hpost.sub, hcomp, hpost.before, ?_⟩
  have hperm : (topoOrder tasks).Perm (taskIds tasks) := by
    rw [List.perm_ext_iff_of_nodup hpost.nodup hv.nodupIds]
    intro a
    exact ⟨fun h => hpost.sub a h, fun h => hcomp a h⟩
  have h1 := hperm.length_eq
  have h2 : (taskIds tasks).length = tasks.length := List.length_map _ _
  omega

theorem not_mem_of_nodup_append_cons {l1 l2 : List String} {t : String}
    (h : (l1 ++ t :: l2).Nodup) : t ∉ l1 := by
  rw [List.nodup_append] at h
  intro hc
  exact h.2.2 hc (List.mem_cons_self _ _)

/-- Every successor of `t` occurs strictly after `t` in `topo_order`. -/
theorem succs_after (tasks : List Task) (hv : ValidInput tasks)
    (tf : TopoFacts tasks) {l1 l2 : List String} {t : String}
    (hdec : topoOrder tasks = l1 ++ t :: l2) :
    ∀ s ∈ successors tasks t, s ∈ l2 := by
  intro s hs
  obtain ⟨hsid, hpred⟩ :=
    (mem_successors_iff_mem_predecessors hv.nodupIds).mp hs
  have hstopo : s ∈ topoOrder tasks := tf.complete s hsid
  rw [hdec] at hstopo
  rcases List.mem_append.mp hstopo with h | h
  · -- s before t would put t before s as well, contradicting nodup
    exfalso
    obtain ⟨a, b, hab⟩ := List.append_of_mem h
    have hdec2 : topoOrder tasks = a ++ s :: (b ++ t :: l2) := by
      rw [hdec, hab]; simp
    have hta : t ∈ a := tf.before a s (b ++ t :: l2) hdec2 t hpred
    have hnd2 : (topoOrder tasks).Nodup := tf.nodup
    rw [hdec] at hnd2
    have htl1 : t ∉ l1 := not_mem_of_nodup_append_cons hnd2
    apply htl1
    rw [hab]
    exact List.mem_append.mpr (Or.inl hta)
  · rcases List.mem_cons.mp h with h1 | h1
    · -- s = t is a self-edge, impossible in an acyclic graph
      exfalso
      have he : edgeRel tasks t s := edgeRel_of_mem_predecessors hpred
      rw [h1] at he
      exact hv.acyclic.not_edgeRel_self t he
    · exact h1

/-! ## The forward pass -/

theorem dlookup_dset_ne {α : Type} (m : List (String × α)) (k k' : String)
    (v : α) (h : ¬ k' = k) : dlookup (dset m k v) k' = dlookup m k' := by
  rw [dlookup_dset, if_neg h]

theorem dlookup_dset_self {α : Type} (m : List (String × α)) (k : String)
    (v : α) : dlookup (dset m k v) k = some v := by
  rw [dlookup_dset, if_pos rfl]

theorem lookupD_dset_ne (m : List (String × Int)) (k k' : String) (v : Int)
    (h : ¬ k' = k) : lookupD (dset m k v) k' = lookupD m k' := by
  unfold lookupD
  rw [dlookup_dset_ne m k k' v h]

theorem lookupD_dset_self (m : List (String × Int)) (k : String) (v : Int) :
    lookupD (dset m k v) k = v := by
  unfold lookupD
  rw [dlookup_dset_self]
  rfl

theorem except_bind_ok {α β : Type} (a : α) (f : α → Except PyError β) :
    (Except.ok a >>= f) = f a := rfl

theorem preds_in_done {tasks : List Task} {topo done rest : List String}
    (hbefore : PredsBeforeAt tasks topo) (hdec : topo = done ++ rest) :
    ∀ u ∈ done, ∀ p ∈ predecessors tasks u, p ∈ done := by
  intro u hu p hp
  obtain ⟨d1, d2, hd⟩ := List.append_of_mem hu
  have hdec2 : topo = d1 ++ u :: (d2 ++ rest) := by
    rw [hdec, hd]; simp
  have := hbefore d1 u (d2 ++ rest) hdec2 p hp
  rw [hd]
  exact List.mem_append.mpr (Or.inl this)

theorem fwd_loop (tasks : List Task) (topo : List String)
    (hbefore : PredsBeforeAt tasks topo) (hnd : topo.Nodup) :
    ∀ (todo done : List String) (st : FwdState),
      topo = done ++ todo → FwdInv tasks done st →
      ∃ st', todo.foldlM (forwardStep tasks) st = Except.ok st' ∧
        FwdInv tasks topo st' := by
  intro todo
  induction todo with
  | nil =>
      intro done st hdec hinv
      refine ⟨st, rfl, ?_⟩
      rw [hdec, List.append_nil]
      exact hinv
  | cons t ts ih =>
      intro done st hdec hinv
      have hpreds : ∀ p ∈ predecessors tasks t, p ∈ done :=
        hbefore done t ts hdec
      have htdone : t ∉ done := by
        rw [hdec] at hnd
        exact not_mem_of_nodup_append_cons hnd
      have hlkup : ∀ p ∈ predecessors tasks t, (dlookup st.EF p).isSome := by
        intro p hp
        apply dlookup_isSome
        rw [hinv.keysEF]
        exact hpreds p hp
      -- compute the earliest start assigned to `t`
      have hstep : ∃ es, forwardStep tasks st t = Except.ok
            ⟨dset st.ES t es, dset st.EF t (es + duration tasks t)⟩ ∧
          (predecessors tasks t = [] → es = 0) ∧
          (predecessors tasks t ≠ [] →
            IsMaxOf es ((predecessors tasks t).map
              (fun p => lookupD st.EF p))) := by
        by_cases hp : predecessors tasks t = []
        · refine ⟨0, ?_, fun _ => rfl, fun hc => absurd hp hc⟩
          unfold forwardStep
          rw [hp]
          rfl
        · have hall := lookupAll_ok st.EF (predecessors tasks t) hlkup
          have hmne : (predecessors tasks t).map (fun p => lookupD st.EF p)
              ≠ [] := fun hc => hp (List.map_eq_nil_iff.mp hc)
          obtain ⟨v, hv, hvmax⟩ := maxE_ok _ hmne
          refine ⟨v, ?_, fun hc => absurd hc hp, fun _ => hvmax⟩
          unfold forwardStep
          have hne : (predecessors tasks t).isEmpty = false := by
            cases hpp : predecessors tasks t with
            | nil => exact absurd hpp hp
            | cons a l => rfl
          rw [hne, if_neg Bool.false_ne_true, hall, except_bind_ok, hv,
            except_bind_ok]
          rfl
      obtain ⟨es, hstepEq, hes0, hesmax⟩ := hstep
      -- the new state satisfies the invariant for `done ++ [t]`
      have hinv' : FwdInv tasks (done ++ [t])
          ⟨dset st.ES t es, dset st.EF t (es + duration tasks t)⟩ := by
        have hksES : (dset st.ES t es).map Prod.fst = done ++ [t] := by
          rw [map_fst_dset_fresh _ _ _ (by rw [hinv.keysES]; exact htdone),
            hinv.keysES]
        have hksEF : (dset st.EF t (es + duration tasks t)).map Prod.fst
            = done ++ [t] := by
          rw [map_fst_dset_fresh _ _ _ (by rw [hinv.keysEF]; exact htdone),
            hinv.keysEF]
        refine ⟨hksES, hksEF, ?_⟩
        intro u hu
        rcases List.mem_append.mp hu with hud | hut
        · -- previously processed tasks: all lookups unchanged
          have hune : ¬ u = t := fun hh => htdone (hh ▸ hud)
          obtain ⟨he1, he2, he3⟩ := hinv.eqs u hud
          have hpu : ∀ p ∈ predecessors tasks u, ¬ p = t := by
            intro p hp hh
            exact htdone (hh ▸ preds_in_done hbefore hdec u hud p hp)
          refine ⟨?_, ?_, ?_⟩
          · rw [dlookup_dset_ne _ _ _ _ hune, lookupD_dset_ne _ _ _ _ hune, he1]
          · intro hp
            rw [dlookup_dset_ne _ _ _ _ hune]
            exact he2 hp
          · intro hp
            rw [lookupD_dset_ne _ _ _ _ hune]
            have hmap : (predecessors tasks u).map
                (fun p => lookupD (dset st.EF t (es + duration tasks t)) p)
                = (predecessors tasks u).map (fun p => lookupD st.EF p) := by
              apply List.map_congr_left
              intro p hp2
              exact lookupD_dset_ne _ _ _ _ (hpu p hp2)
            rw [hmap]
            exact he3 hp
        · -- the task just processed
          have hut2 : u = t := by simpa using hut
          subst hut2
          refine ⟨?_, ?_, ?_⟩
          · rw [dlookup_dset_self, lookupD_dset_self]
          · intro hp
            rw [dlookup_dset_self, hes0 hp]
          · intro hp
            rw [lookupD_dset_self]
            have hmap : (predecessors tasks u).map
                (fun p => lookupD (dset st.EF u (es + duration tasks u)) p)
                = (predecessors tasks u).map (fun p => lookupD st.EF p) := by
              apply List.map_congr_left
              intro p hp2
              exact lookupD_dset_ne _ _ _ _
                (fun hh => htdone (hh ▸ hpreds p hp2))
            rw [hmap]
            exact hesmax hp
      obtain ⟨st', hrun, hpost⟩ := ih (done ++ [t])
        ⟨dset st.ES t es, dset st.EF t (es + duration tasks t)⟩
        (by rw [hdec]; simp) hinv'
      refine ⟨st', ?_, hpost⟩
      rw [List.foldlM_cons, hstepEq, except_bind_ok, hrun]

theorem forwardPass_ok (tasks : List Task) (tf : TopoFacts tasks) :
    ∃ FW, forwardPass tasks (topoOrder tasks) = Except.ok FW ∧
      FwdInv tasks (topoOrder tasks) FW := by
  obtain ⟨st', h1, h2⟩ := fwd_loop tasks (topoOrder tasks) tf.before tf.nodup
    (topoOrder tasks) [] ⟨[], []⟩ (by simp)
    ⟨rfl, rfl, by intro t ht; simp at ht⟩
  exact ⟨st', h1, h2⟩

theorem isMaxOf_transfer {v : Int} {l1 l2 : List String} {f : String → Int}
    (h : IsMaxOf v (l1.map f)) (hmem : ∀ x, x ∈ l1 ↔ x ∈ l2) :
    IsMaxOf v (l2.map f) := by
  obtain ⟨hm, hb⟩ := h
  obtain ⟨x, hx, hfx⟩ := List.mem_map.mp hm
  refine ⟨List.mem_map.mpr ⟨x, (hmem x).mp hx, hfx⟩, ?_⟩
  intro y hy
  obtain ⟨z, hz, hfz⟩ := List.mem_map.mp hy
  rw [← hfz]
  exact hb (f z) (List.mem_map.mpr ⟨z, (hmem z).mpr hz, rfl⟩)

theorem topoOrder_ne_nil (tasks : List Task) (tf : TopoFacts tasks)
    (hne : tasks ≠ []) : topoOrder tasks ≠ [] := by
  intro hc
  obtain ⟨tk, htk⟩ := List.exists_mem_of_ne_nil tasks hne
  have h1 : tk.id ∈ topoOrder tasks :=
    tf.complete tk.id (List.mem_map.mpr ⟨tk, htk, rfl⟩)
  rw [hc] at h1
  simp at h1

theorem projectDuration_ok (tasks : List Task) (tf : TopoFacts tasks)
    {FW : FwdState} (hfw : FwdInv tasks (topoOrder tasks) FW)
    (hne : tasks ≠ []) :
    ∃ pd, projectDurationE FW.EF = Except.ok pd ∧
      IsMaxOf pd ((topoOrder tasks).map (fun t => lookupD FW.EF t)) := by
  have hvals : FW.EF.map Prod.snd
      = (topoOrder tasks).map (fun t => lookupD FW.EF t) := by
    have h1 := map_snd_eq_map_lookupD FW.EF (by rw [hfw.keysEF]; exact tf.nodup)
    rw [h1, hfw.keysEF]
  have htne : topoOrder tasks ≠ [] := topoOrder_ne_nil tasks tf hne
  have hvne : FW.EF.map Prod.snd ≠ [] := by
    rw [hvals]
    intro hc
    exact htne (List.map_eq_nil_iff.mp hc)
  obtain ⟨pd, hpd, hmax⟩ := maxE_ok _ hvne
  refine ⟨pd, hpd, ?_⟩
  rw [← hvals]
  exact hmax

/-! ## The backward pass -/

theorem succs_in_done {tasks : List Task} {topo done rest : List String}
    (hafter : ∀ l1 t l2, topo = l1 ++ t :: l2 →
      ∀ s ∈ successors tasks t, s ∈ l2)
    (hdec : topo.reverse = done ++ rest) :
    ∀ u ∈ done, ∀ s ∈ successors tasks u, s ∈ done := by
  intro u hu s hs
  obtain ⟨d1, d2, hd⟩ := List.append_of_mem hu
  have hdec2 : topo = (d2 ++ rest).reverse ++ u :: d1.reverse := by
    have h1 : topo = (topo.reverse).reverse := by simp
    rw [h1, hdec, hd]
    simp
  have h2 := hafter _ u _ hdec2 s hs
  rw [hd]
  exact List.mem_append.mpr (Or.inl (List.mem_reverse.mp h2))

theorem bwd_loop (tasks : List Task) (topo : List String) (pd : Int)
    (hafter : ∀ l1 t l2, topo = l1 ++ t :: l2 →
      ∀ s ∈ successors tasks t, s ∈ l2)
    (hnd : topo.Nodup) :
    ∀ (todo done : List String) (st : BwdState),
      topo.reverse = done ++ todo → BwdInv tasks pd done st →
      ∃ st', todo.foldlM (backwardStep tasks pd) st = Except.ok st' ∧
        BwdInv tasks pd topo.reverse st' := by
  intro todo
  induction todo with
  | nil =>
      intro done st hdec hinv
      refine ⟨st, rfl, ?_⟩
      rw [hdec, List.append_nil]
      exact hinv
  | cons t ts ih =>
      intro done st hdec hinv
      have hsuccs : ∀ s ∈ successors tasks t, s ∈ done := by
        intro s hs
        have hdec2 : topo = ts.reverse ++ t :: done.reverse := by
          have h1 : topo = (topo.reverse).reverse := by simp
          rw [h1, hdec]
          simp
        have h2 := hafter _ t _ hdec2 s hs
        exact List.mem_reverse.mp h2
      have htdone : t ∉ done := by
        have hrnd : (topo.reverse).Nodup := List.nodup_reverse.mpr hnd
        rw [hdec] at hrnd
        intro hc
        rw [List.nodup_append] at hrnd
        exact hrnd.2.2 hc (List.mem_cons_self _ _)
      have hlkup : ∀ s ∈ successors tasks t, (dlookup st.LS s).isSome := by
        intro s hs
        apply dlookup_isSome
        rw [hinv.keysLS]
        exact hsuccs s hs
      -- compute the latest finish assigned to `t`
      have hstep : ∃ lf, backwardStep tasks pd st t = Except.ok
            ⟨dset st.LS t (lf - duration tasks t), dset st.LF t lf⟩ ∧
          (successors tasks t = [] → lf = pd) ∧
          (successors tasks t ≠ [] →
            IsMinOf lf ((successors tasks t).map
              (fun s => lookupD st.LS s))) := by
        by_cases hp : successors tasks t = []
        · refine ⟨pd, ?_, fun _ => rfl, fun hc => absurd hp hc⟩
          unfold backwardStep
          rw [hp]
          rfl
        · have hall := lookupAll_ok st.LS (successors tasks t) hlkup
          have hmne : (successors tasks t).map (fun s => lookupD st.LS s)
              ≠ [] := fun hc => hp (List.map_eq_nil_iff.mp hc)
          obtain ⟨v, hv, hvmin⟩ := minE_ok _ hmne
          refine ⟨v, ?_, fun hc => absurd hc hp, fun _ => hvmin⟩
          unfold backwardStep
          have hne : (successors tasks t).isEmpty = false := by
            cases hpp : successors tasks t with
            | nil => exact absurd hpp hp
            | cons a l => rfl
          rw [hne, if_neg Bool.false_ne_true, hall, except_bind_ok, hv,
            except_bind_ok]
          rfl
      obtain ⟨lf, hstepEq, hlf0, hlfmin⟩ := hstep
      -- the new state satisfies the invariant for `done ++ [t]`
      have hinv' : BwdInv tasks pd (done ++ [t])
          ⟨dset st.LS t (lf - duration tasks t), dset st.LF t lf⟩ := by
        have hksLS : (dset st.LS t (lf - duration tasks t)).map Prod.fst
            = done ++ [t] := by
          rw [map_fst_dset_fresh _ _ _ (by rw [hinv.keysLS]; exact htdone),
            hinv.keysLS]
        have hksLF : (dset st.LF t lf).map Prod.fst = done ++ [t] := by
          rw [map_fst_dset_fresh _ _ _ (by rw [hinv.keysLF]; exact htdone),
            hinv.keysLF]
        refine ⟨hksLS, hksLF, ?_⟩
        intro u hu
        rcases List.mem_append.mp hu with hud | hut
        · have hune : ¬ u = t := fun hh => htdone (hh ▸ hud)
          obtain ⟨he1, he2, he3⟩ := hinv.eqs u hud
          have hsu : ∀ s ∈ successors tasks u, ¬ s = t := by
            intro s hs hh
            exact htdone (hh ▸ succs_in_done hafter hdec u hud s hs)
          refine ⟨?_, ?_, ?_⟩
          · rw [dlookup_dset_ne _ _ _ _ hune, lookupD_dset_ne _ _ _ _ hune, he1]
          · intro hp
            rw [dlookup_dset_ne _ _ _ _ hune]
            exact he2 hp
          · intro hp
            rw [lookupD_dset_ne _ _ _ _ hune]
            have hmap : (successors tasks u).map
                (fun s => lookupD (dset st.LS t (lf - duration tasks t)) s)
                = (successors tasks u).map (fun s => lookupD st.LS s) := by
              apply List.map_congr_left
              intro s hs2
              exact lookupD_dset_ne _ _ _ _ (hsu s hs2)
            rw [hmap]
            exact he3 hp
        · have hut2 : u = t := by simpa using hut
          subst hut2
          refine ⟨?_, ?_, ?_⟩
          · rw [dlookup_dset_self, lookupD_dset_self]
          · intro hp
            rw [dlookup_dset_self, hlf0 hp]
          · intro hp
            rw [lookupD_dset_self]
            have hmap : (successors tasks u).map
                (fun s => lookupD (dset st.LS u (lf - duration tasks u)) s)
                = (successors tasks u).map (fun s => lookupD st.LS s) := by
              apply List.map_congr_left
              intro s hs2
              exact lookupD_dset_ne _ _ _ _
                (fun hh => htdone (hh ▸ hsuccs s hs2))
            rw [hmap]
            exact hlfmin hp
      obtain ⟨st', hrun, hpost⟩ := ih (done ++ [t])
        ⟨dset st.LS t (lf - duration tasks t), dset st.LF t lf⟩
        (by rw [hdec]; simp) hinv'
      refine ⟨st', ?_, hpost⟩
      rw [List.foldlM_cons, hstepEq, except_bind_ok, hrun]

theorem backwardPass_ok (tasks : List Task) (hv : ValidInput tasks)
    (tf : TopoFacts tasks) (pd : Int) :
    ∃ BW, backwardPass tasks (topoOrder tasks) pd = Except.ok BW ∧
      BwdInv tasks pd (topoOrder tasks).reverse BW := by
  obtain ⟨st', h1, h2⟩ := bwd_loop tasks (topoOrder tasks) pd
    (fun l1 t l2 hdec => succs_after tasks hv tf hdec) tf.nodup
    (topoOrder tasks).reverse [] ⟨[], []⟩ (by simp)
    ⟨rfl, rfl, by intro t ht; simp at ht⟩
  exact ⟨st', h1, h2⟩

/-! ## The slack dict and the full run -/

theorem slackList_ok (fwd : FwdState) (bwd : BwdState) :
    ∀ l : List String,
      (∀ t ∈ l, (dlookup bwd.LS t).isSome ∧ (dlookup fwd.ES t).isSome) →
      slackList fwd bwd l = Except.ok
        (l.map (fun t => (t, lookupD bwd.LS t - lookupD fwd.ES t))) := by
  intro l
  induction l with
  | nil => intro _; rfl
  | cons t ts ih =>
      intro h
      obtain ⟨hls, hes⟩ := h t (List.mem_cons_self _ _)
      obtain ⟨v1, hv1⟩ := Option.isSome_iff_exists.mp hls
      obtain ⟨v2, hv2⟩ := Option.isSome_iff_exists.mp hes
      unfold slackList
      rw [getItem_ok _ _ _ hv1, except_bind_ok, getItem_ok _ _ _ hv2,
        except_bind_ok, ih (fun u hu => h u (List.mem_cons_of_mem _ hu)),
        except_bind_ok]
      have h1 : lookupD bwd.LS t = v1 := by simp [lookupD, hv1]
      have h2 : lookupD fwd.ES t = v2 := by simp [lookupD, hv2]
      rw [List.map_cons, h1, h2]
      rfl

theorem computeSchedule_run (tasks : List Task) (hv : ValidInput tasks)
    (hne : tasks ≠ []) :
    ∃ (FW : FwdState) (BW : BwdState) (pd : Int),
      forwardPass tasks (topoOrder tasks) = Except.ok FW ∧
      FwdInv tasks (topoOrder tasks) FW ∧
      projectDurationE FW.EF = Except.ok pd ∧
      IsMaxOf pd ((topoOrder tasks).map (fun t => lookupD FW.EF t)) ∧
      backwardPass tasks (topoOrder tasks) pd = Except.ok BW ∧
      BwdInv tasks pd (topoOrder tasks).reverse BW ∧
      computeSchedule tasks = Except.ok
        { topo := topoOrder tasks
          ES := FW.ES
          EF := FW.EF
          LS := BW.LS
          LF := BW.LF
          slack := (taskIds tasks).map
            (fun t => (t, lookupD BW.LS t - lookupD FW.ES t))
          projectDuration := pd
          criticalPath := selectCritical (bestInfo tasks (topoOrder tasks))
            (endTasks tasks) } := by
  have tf := topoFacts tasks hv
  obtain ⟨FW, hfw, hfwi⟩ := forwardPass_ok tasks tf
  obtain ⟨pd, hpd, hpdmax⟩ := projectDuration_ok tasks tf hfwi hne
  obtain ⟨BW, hbw, hbwi⟩ := backwardPass_ok tasks hv tf pd
  have hslk : slackMap tasks FW BW = Except.ok ((taskIds tasks).map
      (fun t => (t, lookupD BW.LS t - lookupD FW.ES t))) := by
    unfold slackMap
    apply slackList_ok
    intro t ht
    have h1 : t ∈ topoOrder tasks := tf.complete t ht
    constructor
    · apply dlookup_isSome
      rw [hbwi.keysLS]
      exact List.mem_reverse.mpr h1
    · apply dlookup_isSome
      rw [hfwi.keysES]
      exact h1
  refine ⟨FW, BW, pd, hfw, hfwi, hpd, hpdmax, hbw, hbwi, ?_⟩
  simp only [computeSchedule]
  rw [hfw, except_bind_ok, hpd, except_bind_ok, hbw, except_bind_ok, hslk,
    except_bind_ok]
  rfl

/-! ## The longest-path dynamic program -/

theorem infoKey_dset_ne (best : List (String × PathInfo)) (t q : String)
    (v : PathInfo) (h : ¬ q = t) :
    infoKey (dset best t v) q = infoKey best q := by
  unfold infoKey
  rw [dlookup_dset_ne _ _ _ _ h]

theorem dp_loop (tasks : List Task) (topo : List String)
    (hbefore : PredsBeforeAt tasks topo) (hnd : topo.Nodup) :
    ∀ (todo done : List String) (best : List (String × PathInfo)),
      topo = done ++ todo → DpInv tasks done best →
      DpInv tasks topo (todo.foldl (dpStep tasks) best) := by
  intro todo
  induction todo with
  | nil =>
      intro done best hdec hinv
      rw [List.foldl_nil]
      rw [hdec, List.append_nil]
      exact hinv
  | cons t ts ih =>
      intro done best hdec hinv
      rw [List.foldl_cons]
      have hpreds : ∀ p ∈ predecessors tasks t, p ∈ done :=
        hbefore done t ts hdec
      have htdone : t ∉ done := by
        rw [hdec] at hnd
        exact not_mem_of_nodup_append_cons hnd
      have hkeys : best.map Prod.fst = done := hinv.keys
      -- the computed entry for `t`
      have hstep : ∃ infoT, dpStep tasks best t = dset best t infoT ∧
          (predecessors tasks t = [] → infoT = ⟨duration tasks t, 1, [t]⟩) ∧
          (predecessors tasks t ≠ [] → ∃ l1 p l2,
            predecessors tasks t = l1 ++ p :: l2 ∧
            (∀ q ∈ l1, keyGt (infoKey best p) (infoKey best q) = true) ∧
            (∀ q ∈ predecessors tasks t,
              keyGt (infoKey best q) (infoKey best p) = false) ∧
            infoT = ⟨((dlookup best p).getD defaultInfo).total + duration tasks t,
                     ((dlookup best p).getD defaultInfo).count + 1,
                     ((dlookup best p).getD defaultInfo).path ++ [t]⟩) := by
        cases hpp : predecessors tasks t with
        | nil =>
            refine ⟨⟨duration tasks t, 1, [t]⟩, ?_, fun _ => rfl,
              fun hc => absurd rfl hc⟩
            unfold dpStep
            rw [hpp]
        | cons p ps =>
            obtain ⟨l1, l2, hdec2, hl1, hall⟩ :=
              pyMaxBy_spec (infoKey best) p ps
            refine ⟨_, ?_, fun hc => absurd hc (List.cons_ne_nil _ _),
              fun _ => ⟨l1, pyMaxBy (infoKey best) p ps, l2, hdec2, hl1,
                hall, rfl⟩⟩
            unfold dpStep
            rw [hpp]
      obtain ⟨infoT, hstepEq, hT0, hTcons⟩ := hstep
      rw [hstepEq]
      -- the extended state satisfies the invariant for `done ++ [t]`
      apply ih (done ++ [t]) _ (by rw [hdec]; simp)
      have hks : (dset best t infoT).map Prod.fst = done ++ [t] := by
        rw [map_fst_dset_fresh _ _ _ (by rw [hkeys]; exact htdone), hkeys]
      refine ⟨hks, ?_⟩
      intro u hu
      rcases List.mem_append.mp hu with hud | hut
      · -- previously processed entries are untouched
        have hune : ¬ u = t := fun hh => htdone (hh ▸ hud)
        obtain ⟨info, hlk, hnil, hcons⟩ := hinv.eqs u hud
        have hstable : ∀ q ∈ predecessors tasks u,
            infoKey (dset best t infoT) q = infoKey best q := by
          intro q hq
          refine infoKey_dset_ne best t q infoT (fun hh => htdone ?_)
          rw [← hh]
          exact preds_in_done hbefore hdec u hud q hq
        refine ⟨info, by rw [dlookup_dset_ne _ _ _ _ hune]; exact hlk,
          hnil, ?_⟩
        intro hp
        obtain ⟨l1, p, l2, hdec2, hl1, hall, hext⟩ := hcons hp
        have hpmem : p ∈ predecessors tasks u := by
          rw [hdec2]
          exact List.mem_append.mpr (Or.inr (List.mem_cons_self _ _))
        have hpne : ¬ p = t := by
          intro hh
          apply htdone
          rw [← hh]
          exact preds_in_done hbefore hdec u hud p hpmem
        refine ⟨l1, p, l2, hdec2, ?_, ?_, ?_⟩
        · intro q hq
          have hqmem : q ∈ predecessors tasks u := by
            rw [hdec2]
            exact List.mem_append.mpr (Or.inl hq)
          rw [hstable p hpmem, hstable q hqmem]
          exact hl1 q hq
        · intro q hq
          rw [hstable p hpmem, hstable q hq]
          exact hall q hq
        · rw [dlookup_dset_ne _ _ _ _ hpne]
          exact hext
      · -- the entry for `t` just written
        have hut2 : u = t := by simpa using hut
        subst hut2
        refine ⟨infoT, dlookup_dset_self _ _ _, hT0, ?_⟩
        intro hp
        obtain ⟨l1, p, l2, hdec2, hl1, hall, hext⟩ := hTcons hp
        have hpmem : p ∈ predecessors tasks u := by
          rw [hdec2]
          exact List.mem_append.mpr (Or.inr (List.mem_cons_self _ _))
        have hstable : ∀ q ∈ predecessors tasks u,
            infoKey (dset best u infoT) q = infoKey best q := by
          intro q hq
          refine infoKey_dset_ne best u q infoT (fun hh => htdone ?_)
          rw [← hh]
          exact hpreds q hq
        refine ⟨l1, p, l2, hdec2, ?_, ?_, ?_⟩
        · intro q hq
          have hqmem : q ∈ predecessors tasks u := by
            rw [hdec2]
            exact List.mem_append.mpr (Or.inl hq)
          rw [hstable p hpmem, hstable q hqmem]
          exact hl1 q hq
        · intro q hq
          rw [hstable p hpmem, hstable q hq]
          exact hall q hq
        · rw [dlookup_dset_ne _ _ _ _ (fun hh => htdone (by
            rw [← hh]; exact hpreds p hpmem))]
          exact hext

theorem bestInfo_dpInv (tasks : List Task) (tf : TopoFacts tasks) :
    DpInv tasks (topoOrder tasks) (bestInfo tasks (topoOrder tasks)) := by
  have h := dp_loop tasks (topoOrder tasks) tf.before tf.nodup
    (topoOrder tasks) [] [] (by simp) ⟨rfl, by intro t ht; simp at ht⟩
  exact h

/-! ## Terminal selection -/

theorem selFold_spec
    (f : (Int × Nat) × List String → String → (Int × Nat) × List String)
    (key : String → Int × Nat) (pth : String → List String)
    (hf : ∀ acc t, f acc t
      = if keyGt (key t) acc.1 then (key t, pth t) else acc) :
    ∀ (ends : List String) (acc : (Int × Nat) × List String),
      (ends.foldl f acc = acc ∧
        ∀ t ∈ ends, keyGt (key t) acc.1 = false) ∨
      (∃ l1 z l2, ends = l1 ++ z :: l2 ∧
        ends.foldl f acc = (key z, pth z) ∧
        keyGt (key z) acc.1 = true ∧
        (∀ q ∈ l1, keyGt (key z) (key q) = true) ∧
        (∀ q ∈ ends, keyGt (key q) (key z) = false)) := by
  intro ends
  induction ends with
  | nil =>
      intro acc
      exact Or.inl ⟨rfl, by simp⟩
  | cons e es ih =>
      intro acc
      rw [List.foldl_cons, hf acc e]
      by_cases hbeat : keyGt (key e) acc.1 = true
      · rw [if_pos hbeat]
        rcases ih (key e, pth e)
          with ⟨hres, hnb⟩ | ⟨m1, z, m2, hdec, hres, hzb, hl1, hall⟩
        · refine Or.inr ⟨[], e, es, rfl, by rw [hres], hbeat, by simp, ?_⟩
          intro q hq
          rcases List.mem_cons.mp hq with h | h
          · rw [h]
            exact keyGt_self _
          · exact hnb q h
        · refine Or.inr ⟨e :: m1, z, m2, by rw [hdec]; rfl, hres,
            keyGt_trans hzb hbeat, ?_, ?_⟩
          · intro q hq
            rcases List.mem_cons.mp hq with h | h
            · rw [h]
              exact hzb
            · exact hl1 q h
          · intro q hq
            rcases List.mem_cons.mp hq with h | h
            · rw [h, keyGt_eq_false_iff]
              exact lexLe_of_keyGt hzb
            · exact hall q h
      · have hbeat' : keyGt (key e) acc.1 = false := by
          rw [← Bool.not_eq_true]
          exact hbeat
        rw [if_neg hbeat]
        rcases ih acc with ⟨hres, hnb⟩ | ⟨m1, z, m2, hdec, hres, hzb, hl1, hall⟩
        · refine Or.inl ⟨hres, ?_⟩
          intro t ht
          rcases List.mem_cons.mp ht with h | h
          · rw [h]
            exact hbeat'
          · exact hnb t h
        · refine Or.inr ⟨e :: m1, z, m2, by rw [hdec]; rfl, hres, hzb, ?_, ?_⟩
          · intro q hq
            rcases List.mem_cons.mp hq with h | h
            · rw [h]
              exact keyGt_lexLe_trans hzb ((keyGt_eq_false_iff _ _).mp hbeat')
            · exact hl1 q h
          · intro q hq
            rcases List.mem_cons.mp hq with h | h
            · rw [h, keyGt_eq_false_iff]
              exact lexLe_trans ((keyGt_eq_false_iff _ _).mp hbeat')
                (lexLe_of_keyGt hzb)
            · exact hall q h

theorem selectCritical_spec (best : List (String × PathInfo))
    (ends : List String) :
    (selectCritical best ends = [] ∧
      ∀ t ∈ ends, keyGt (infoKey best t) (0, 0) = false) ∨
    (∃ l1 z l2, ends = l1 ++ z :: l2 ∧
      selectCritical best ends = ((dlookup best z).getD defaultInfo).path ∧
      keyGt (infoKey best z) (0, 0) = true ∧
      (∀ q ∈ l1, keyGt (infoKey best z) (infoKey best q) = true) ∧
      (∀ q ∈ ends, keyGt (infoKey best q) (infoKey best z) = false)) := by
  unfold selectCritical
  rcases selFold_spec
    (fun (acc : (Int × Nat) × List String) t =>
      let info := (dlookup best t).getD defaultInfo
      if keyGt (info.total, info.count) acc.1
      then ((info.total, info.count), info.path) else acc)
    (infoKey best) (fun t => ((dlookup best t).getD defaultInfo).path)
    (fun _ _ => rfl) ends ((0, 0), [])
    with ⟨hres, hnb⟩ | ⟨l1, z, l2, hdec, hres, hzb, hl1, hall⟩
  · left
    exact ⟨by rw [hres], hnb⟩
  · right
    exact ⟨l1, z, l2, hdec, by rw [hres], hzb, hl1, hall⟩

theorem mem_endTasks (tasks : List Task) (t : String) :
    t ∈ endTasks tasks ↔ t ∈ taskIds tasks ∧ successors tasks t = [] := by
  unfold endTasks
  rw [List.mem_filter]
  constructor
  · rintro ⟨h1, h2⟩
    exact ⟨h1, List.isEmpty_iff.mp h2⟩
  · rintro ⟨h1, h2⟩
    exact ⟨h1, List.isEmpty_iff.mpr h2⟩

/-! ## Path theory: the forward pass computes longest path durations -/

theorem pathDur_append_one (tasks : List Task) (P : List String) (t : String) :
    pathDur tasks (P ++ [t]) = pathDur tasks P + duration tasks t := by
  simp [pathDur]

theorem pathDur_cons (tasks : List Task) (t : String) (Q : List String) :
    pathDur tasks (t :: Q) = duration tasks t + pathDur tasks Q := by
  simp [pathDur]

theorem pathDur_single (tasks : List Task) (t : String) :
    pathDur tasks [t] = duration tasks t := by
  simp [pathDur]

theorem rootPath_mem_ids {tasks : List Task} {P : List String} {t : String}
    (h : RootPath tasks P t) : ∀ x ∈ P, x ∈ taskIds tasks := by
  induction h with
  | root t ht _ =>
      intro x hx
      rcases List.mem_cons.mp hx with h1 | h1
      · exact h1 ▸ ht
      · simp at h1
  | extend P p t hP ht hp ih =>
      intro x hx
      rcases List.mem_append.mp hx with h1 | h1
      · exact ih x h1
      · have : x = t := by simpa using h1
        exact this ▸ ht

theorem rootPath_ne_nil {tasks : List Task} {P : List String} {t : String}
    (h : RootPath tasks P t) : P ≠ [] := by
  induction h with
  | root t _ _ => simp
  | extend P p t _ _ _ _ => simp

theorem fwd_upper (tasks : List Task) (tf : TopoFacts tasks) {FW : FwdState}
    (hfwi : FwdInv tasks (topoOrder tasks) FW) :
    ∀ (P : List String) (t : String), RootPath tasks P t →
      pathDur tasks P ≤ lookupD FW.EF t := by
  intro P t h
  induction h with
  | root t ht hp =>
      obtain ⟨he1, he2, _⟩ := hfwi.eqs t (tf.complete t ht)
      have hes : lookupD FW.ES t = 0 := by
        simp [lookupD, he2 hp]
      have hef : lookupD FW.EF t = lookupD FW.ES t + duration tasks t := by
        simp [lookupD, he1]
      rw [pathDur_single, hef, hes]
      omega
  | extend P p t hP ht hp ih =>
      obtain ⟨he1, _, he3⟩ := hfwi.eqs t (tf.complete t ht)
      have hmax := he3 (by intro hc; rw [hc] at hp; simp at hp)
      have hple : lookupD FW.EF p ≤ lookupD FW.ES t :=
        hmax.2 _ (List.mem_map.mpr ⟨p, hp, rfl⟩)
      have hef : lookupD FW.EF t = lookupD FW.ES t + duration tasks t := by
        simp [lookupD, he1]
      rw [pathDur_append_one, hef]
      omega

theorem fwd_exists_base (tasks : List Task) (tf : TopoFacts tasks)
    {FW : FwdState} (hfwi : FwdInv tasks (topoOrder tasks) FW)
    (t : String) (ht : t ∈ topoOrder tasks)
    (hp : predecessors tasks t = []) :
    ∃ P, RootPath tasks P t ∧ pathDur tasks P = lookupD FW.EF t := by
  obtain ⟨he1, he2, _⟩ := hfwi.eqs t ht
  have hes : lookupD FW.ES t = 0 := by simp [lookupD, he2 hp]
  have hef : lookupD FW.EF t = lookupD FW.ES t + duration tasks t := by
    simp [lookupD, he1]
  refine ⟨[t], RootPath.root t (tf.sub t ht) hp, ?_⟩
  rw [pathDur_single, hef, hes]
  omega

theorem fwd_exists_aux (tasks : List Task) (tf : TopoFacts tasks)
    {FW : FwdState} (hfwi : FwdInv tasks (topoOrder tasks) FW) :
    ∀ (n : Nat) (l1 : List String) (t : String) (l2 : List String),
      l1.length ≤ n → topoOrder tasks = l1 ++ t :: l2 →
      ∃ P, RootPath tasks P t ∧ pathDur tasks P = lookupD FW.EF t := by
  intro n
  induction n with
  | zero =>
      intro l1 t l2 hlen hdec
      have hl1 : l1 = [] := List.length_eq_zero.mp (by omega)
      have hp : predecessors tasks t = [] := by
        rw [List.eq_nil_iff_forall_not_mem]
        intro p hp
        have h1 := tf.before l1 t l2 hdec p hp
        rw [hl1] at h1
        simp at h1
      exact fwd_exists_base tasks tf hfwi t
        (by rw [hdec]; exact List.mem_append.mpr (Or.inr (List.mem_cons_self _ _))) hp
  | succ n ihn =>
      intro l1 t l2 hlen hdec
      have htmem : t ∈ topoOrder tasks := by
        rw [hdec]
        exact List.mem_append.mpr (Or.inr (List.mem_cons_self _ _))
      by_cases hp : predecessors tasks t = []
      · exact fwd_exists_base tasks tf hfwi t htmem hp
      · obtain ⟨he1, _, he3⟩ := hfwi.eqs t htmem
        have hmax := he3 hp
        obtain ⟨ef, hefm, hefeq⟩ := List.mem_map.mp hmax.1
        -- `ef` is a predecessor whose EF attains the maximum
        have hpl1 : ef ∈ l1 := tf.before l1 t l2 hdec ef hefm
        obtain ⟨a, b, hab⟩ := List.append_of_mem hpl1
        have hdec2 : topoOrder tasks = a ++ ef :: (b ++ t :: l2) := by
          rw [hdec, hab]
          simp
        have halen : a.length ≤ n := by
          have h1 : l1.length = a.length + b.length + 1 := by
            rw [hab]
            simp
            omega
          omega
        obtain ⟨P, hP, hPdur⟩ := ihn a ef (b ++ t :: l2) halen hdec2
        refine ⟨P ++ [t], RootPath.extend P ef t hP (tf.sub t htmem) hefm, ?_⟩
        have hef : lookupD FW.EF t = lookupD FW.ES t + duration tasks t := by
          simp [lookupD, he1]
        rw [pathDur_append_one, hPdur, hefeq, hef]

theorem fwd_exists (tasks : List Task) (tf : TopoFacts tasks)
    {FW : FwdState} (hfwi : FwdInv tasks (topoOrder tasks) FW)
    (t : String) (ht : t ∈ topoOrder tasks) :
    ∃ P, RootPath tasks P t ∧ pathDur tasks P = lookupD FW.EF t := by
  obtain ⟨l1, l2, hdec⟩ := List.append_of_mem ht
  exact fwd_exists_aux tasks tf hfwi l1.length l1 t l2 (le_refl _) hdec

/-! ## Path theory: the backward pass computes longest remaining durations -/

theorem termPath_head {tasks : List Task} {t : String} {Q : List String}
    (h : TermPath tasks t Q) : ∃ Q', Q = t :: Q' := by
  cases h with
  | term t _ _ => exact ⟨[], rfl⟩
  | extend t s Q _ _ _ => exact ⟨Q, rfl⟩

theorem bwd_upper (tasks : List Task) (tf : TopoFacts tasks) (pd : Int)
    {BW : BwdState} (hbwi : BwdInv tasks pd (topoOrder tasks).reverse BW) :
    ∀ (t : String) (Q : List String), TermPath tasks t Q →
      pathDur tasks Q ≤ pd - lookupD BW.LS t := by
  intro t Q h
  induction h with
  | term t ht hs =>
      have hmem : t ∈ (topoOrder tasks).reverse :=
        List.mem_reverse.mpr (tf.complete t ht)
      obtain ⟨he1, he2, _⟩ := hbwi.eqs t hmem
      have hlf : lookupD BW.LF t = pd := by simp [lookupD, he2 hs]
      have hls : lookupD BW.LS t = lookupD BW.LF t - duration tasks t := by
        simp [lookupD, he1]
      rw [pathDur_single, hls, hlf]
      omega
  | extend t s Q hQ ht hs ih =>
      have hmem : t ∈ (topoOrder tasks).reverse :=
        List.mem_reverse.mpr (tf.complete t ht)
      obtain ⟨he1, _, he3⟩ := hbwi.eqs t hmem
      have hmin := he3 (by intro hc; rw [hc] at hs; simp at hs)
      have hsle : lookupD BW.LF t ≤ lookupD BW.LS s :=
        hmin.2 _ (List.mem_map.mpr ⟨s, hs, rfl⟩)
      have hls : lookupD BW.LS t = lookupD BW.LF t - duration tasks t := by
        simp [lookupD, he1]
      rw [pathDur_cons, hls]
      omega

theorem bwd_exists_base (tasks : List Task) (tf : TopoFacts tasks) (pd : Int)
    {BW : BwdState} (hbwi : BwdInv tasks pd (topoOrder tasks).reverse BW)
    (t : String) (ht : t ∈ topoOrder tasks)
    (hs : successors tasks t = []) :
    ∃ Q, TermPath tasks t Q ∧ pathDur tasks Q = pd - lookupD BW.LS t := by
  obtain ⟨he1, he2, _⟩ := hbwi.eqs t (List.mem_reverse.mpr ht)
  have hlf : lookupD BW.LF t = pd := by simp [lookupD, he2 hs]
  have hls : lookupD BW.LS t = lookupD BW.LF t - duration tasks t := by
    simp [lookupD, he1]
  refine ⟨[t], TermPath.term t (tf.sub t ht) hs, ?_⟩
  rw [pathDur_single, hls, hlf]
  omega

theorem bwd_exists_aux (tasks : List Task) (hv : ValidInput tasks)
    (tf : TopoFacts tasks) (pd : Int)
    {BW : BwdState} (hbwi : BwdInv tasks pd (topoOrder tasks).reverse BW) :
    ∀ (n : Nat) (l1 : List String) (t : String) (l2 : List String),
      l2.length ≤ n → topoOrder tasks = l1 ++ t :: l2 →
      ∃ Q, TermPath tasks t Q ∧ pathDur tasks Q = pd - lookupD BW.LS t := by
  intro n
  induction n with
  | zero =>
      intro l1 t l2 hlen hdec
      have hl2 : l2 = [] := List.length_eq_zero.mp (by omega)
      have hs : successors tasks t = [] := by
        rw [List.eq_nil_iff_forall_not_mem]
        intro s hsm
        have h1 := succs_after tasks hv tf hdec s hsm
        rw [hl2] at h1
        simp at h1
      exact bwd_exists_base tasks tf pd hbwi t
        (by rw [hdec]; exact List.mem_append.mpr (Or.inr (List.mem_cons_self _ _))) hs
  | succ n ihn =>
      intro l1 t l2 hlen hdec
      have htmem : t ∈ topoOrder tasks := by
        rw [hdec]
        exact List.mem_append.mpr (Or.inr (List.mem_cons_self _ _))
      by_cases hs : successors tasks t = []
      · exact bwd_exists_base tasks tf pd hbwi t htmem hs
      · obtain ⟨he1, _, he3⟩ := hbwi.eqs t (List.mem_reverse.mpr htmem)
        have hmin := he3 hs
        obtain ⟨s, hsm, hseq⟩ := List.mem_map.mp hmin.1
        have hsl2 : s ∈ l2 := succs_after tasks hv tf hdec s hsm
        obtain ⟨a, b, hab⟩ := List.append_of_mem hsl2
        have hdec2 : topoOrder tasks = (l1 ++ t :: a) ++ s :: b := by
          rw [hdec, hab]
          simp
        have hblen : b.length ≤ n := by
          have h1 : l2.length = a.length + b.length + 1 := by
            rw [hab]
            simp
            omega
          omega
        obtain ⟨Q, hQ, hQdur⟩ := ihn (l1 ++ t :: a) s b hblen hdec2
        refine ⟨t :: Q, TermPath.extend t s Q hQ (tf.sub t htmem) hsm, ?_⟩
        have hls : lookupD BW.LS t = lookupD BW.LF t - duration tasks t := by
          simp [lookupD, he1]
        rw [pathDur_cons, hQdur, hseq, hls]
        omega

theorem bwd_exists (tasks : List Task) (hv : ValidInput tasks)
    (tf : TopoFacts tasks) (pd : Int)
    {BW : BwdState} (hbwi : BwdInv tasks pd (topoOrder tasks).reverse BW)
    (t : String) (ht : t ∈ topoOrder tasks) :
    ∃ Q, TermPath tasks t Q ∧ pathDur tasks Q = pd - lookupD BW.LS t := by
  obtain ⟨l1, l2, hdec⟩ := List.append_of_mem ht
  exact bwd_exists_aux tasks hv tf pd hbwi l2.length l1 t l2 (le_refl _) hdec

/-! ## Path theory: splitting and gluing paths -/

theorem rootPath_end_mem {tasks : List Task} {P : List String} {t : String}
    (h : RootPath tasks P t) : t ∈ P := by
  cases h with
  | root t _ _ => exact List.mem_cons_self _ _
  | extend P p t _ _ _ => exact List.mem_append.mpr (Or.inr (List.mem_cons_self _ _))

theorem walk_append_one {tasks : List Task} {t : String} {S : List String}
    {p : String} (h : Walk tasks t S p) {z : String}
    (hz : z ∈ successors tasks p) : Walk tasks t (S ++ [z]) z := by
  induction h with
  | nil a => exact Walk.cons a z [] z hz (Walk.nil z)
  | cons a s S b hs hw ih => exact Walk.cons a s (S ++ [z]) z hs (ih hz)

theorem walk_to_termPath {tasks : List Task} {z : String}
    (hz : successors tasks z = []) :
    ∀ {t : String} {S : List String}, Walk tasks t S z →
      t ∈ taskIds tasks → TermPath tasks t (t :: S) := by
  intro t S h
  induction h with
  | nil a =>
      intro ha
      exact TermPath.term a ha hz
  | cons a s S b hs hw ih =>
      intro ha
      exact TermPath.extend a s (s :: S) (ih hz (mem_successors_sub_ids hs)) ha hs

theorem rootPath_split {tasks : List Task} (hv : ValidInput tasks) :
    ∀ {R : List String} {z : String}, RootPath tasks R z → ∀ t ∈ R,
      ∃ P S, R = P ++ S ∧ RootPath tasks P t ∧ Walk tasks t S z ∧
        pathDur tasks R = pathDur tasks P + pathDur tasks S := by
  intro R z h
  induction h with
  | root a ha hp =>
      intro t ht
      have ht2 : t = a := by simpa using ht
      subst ht2
      exact ⟨[t], [], by simp, RootPath.root t ha hp, Walk.nil t,
        by simp [pathDur]⟩
  | extend P p a hP ha hpa ih =>
      intro t ht
      rcases List.mem_append.mp ht with h1 | h1
      · obtain ⟨P0, S0, hPS, hRP, hW, hdur⟩ := ih t h1
        refine ⟨P0, S0 ++ [a], by rw [hPS]; simp, hRP, ?_, ?_⟩
        · exact walk_append_one hW
            ((mem_successors_iff_mem_predecessors hv.nodupIds).mpr ⟨ha, hpa⟩)
        · rw [pathDur_append_one, hdur, pathDur_append_one]
          omega
      · have ht2 : t = a := by simpa using h1
        subst ht2
        exact ⟨P ++ [t], [], by simp, RootPath.extend P p t hP ha hpa,
          Walk.nil t, by simp [pathDur]⟩

theorem glue_paths {tasks : List Task} (hv : ValidInput tasks) :
    ∀ {t : String} {Q : List String}, TermPath tasks t Q →
      ∀ {P : List String}, RootPath tasks P t →
      FullPath tasks (P ++ Q.tail) ∧
      pathDur tasks (P ++ Q.tail)
        = pathDur tasks P + pathDur tasks Q - duration tasks t := by
  intro t Q h
  induction h with
  | term a ha hs =>
      intro P hP
      refine ⟨⟨a, by simpa using hP, hs⟩, ?_⟩
      rw [List.tail_cons, List.append_nil, pathDur_single]
      omega
  | extend a s Q' hQ ha hsmem ih =>
      intro P hP
      obtain ⟨hsid, hapred⟩ :=
        (mem_successors_iff_mem_predecessors hv.nodupIds).mp hsmem
      have hRP : RootPath tasks (P ++ [s]) s :=
        RootPath.extend P a s hP hsid hapred
      obtain ⟨hfull, hdur⟩ := ih hRP
      obtain ⟨Q'', hQ''⟩ := termPath_head hQ
      have hlist : (P ++ [s]) ++ Q'.tail = P ++ (a :: Q').tail := by
        rw [List.tail_cons, hQ'', List.tail_cons]
        simp
      rw [hlist] at hfull hdur
      refine ⟨hfull, ?_⟩
      rw [hdur, pathDur_append_one, pathDur_cons]
      omega

theorem fullPath_le_pd (tasks : List Task) (tf : TopoFacts tasks)
    {FW : FwdState} (hfwi : FwdInv tasks (topoOrder tasks) FW) {pd : Int}
    (hpdmax : IsMaxOf pd ((topoOrder tasks).map (fun t => lookupD FW.EF t))) :
    ∀ R, FullPath tasks R → pathDur tasks R ≤ pd := by
  rintro R ⟨z, hR, hz⟩
  have h1 := fwd_upper tasks tf hfwi R z hR
  have hzmem : z ∈ topoOrder tasks :=
    tf.complete z (rootPath_mem_ids hR z (rootPath_end_mem hR))
  have h2 : lookupD FW.EF z ≤ pd :=
    hpdmax.2 _ (List.mem_map.mpr ⟨z, hzmem, rfl⟩)
  omega

/-! ## Slack: non-negativity and the critical tasks -/

theorem map_fst_map_pair (f : String → Int) (l : List String) :
    (l.map (fun x => (x, f x))).map Prod.fst = l := by
  induction l with
  | nil => rfl
  | cons a as iha =>
      simp only [List.map_cons]
      rw [iha]

theorem dlookup_map_pair (f : String → Int) (l : List String)
    (hnd : l.Nodup) (t : String) (ht : t ∈ l) :
    dlookup (l.map (fun x => (x, f x))) t = some (f t) := by
  apply dlookup_mem_of_nodup
  · rw [map_fst_map_pair]
    exact hnd
  · exact List.mem_map.mpr ⟨t, ht, rfl⟩

theorem slack_nonneg (tasks : List Task) (hv : ValidInput tasks)
    (tf : TopoFacts tasks) {FW : FwdState} {BW : BwdState} {pd : Int}
    (hfwi : FwdInv tasks (topoOrder tasks) FW)
    (hpdmax : IsMaxOf pd ((topoOrder tasks).map (fun t => lookupD FW.EF t)))
    (hbwi : BwdInv tasks pd (topoOrder tasks).reverse BW)
    (t : String) (ht : t ∈ topoOrder tasks) :
    0 ≤ lookupD BW.LS t - lookupD FW.ES t := by
  obtain ⟨P, hP, hPd⟩ := fwd_exists tasks tf hfwi t ht
  obtain ⟨Q, hQ, hQd⟩ := bwd_exists tasks hv tf pd hbwi t ht
  obtain ⟨hfull, hdur⟩ := glue_paths hv hQ hP
  have hle := fullPath_le_pd tasks tf hfwi hpdmax _ hfull
  obtain ⟨he1, _, _⟩ := hfwi.eqs t ht
  have hef : lookupD FW.EF t = lookupD FW.ES t + duration tasks t := by
    simp [lookupD, he1]
  omega

theorem slack_zero_iff (tasks : List Task) (hv : ValidInput tasks)
    (tf : TopoFacts tasks) {FW : FwdState} {BW : BwdState} {pd : Int}
    (hfwi : FwdInv tasks (topoOrder tasks) FW)
    (hpdmax : IsMaxOf pd ((topoOrder tasks).map (fun t => lookupD FW.EF t)))
    (hbwi : BwdInv tasks pd (topoOrder tasks).reverse BW)
    (t : String) (ht : t ∈ topoOrder tasks) :
    lookupD BW.LS t - lookupD FW.ES t = 0 ↔
      ∃ R, FullPath tasks R ∧ t ∈ R ∧ pathDur tasks R = pd ∧
        ∀ R', FullPath tasks R' → pathDur tasks R' ≤ pathDur tasks R := by
  obtain ⟨he1, _, _⟩ := hfwi.eqs t ht
  have hef : lookupD FW.EF t = lookupD FW.ES t + duration tasks t := by
    simp [lookupD, he1]
  constructor
  · intro hz
    obtain ⟨P, hP, hPd⟩ := fwd_exists tasks tf hfwi t ht
    obtain ⟨Q, hQ, hQd⟩ := bwd_exists tasks hv tf pd hbwi t ht
    obtain ⟨hfull, hdur⟩ := glue_paths hv hQ hP
    have hRd : pathDur tasks (P ++ Q.tail) = pd := by
      omega
    refine ⟨P ++ Q.tail, hfull, ?_, hRd, ?_⟩
    · exact List.mem_append.mpr (Or.inl (rootPath_end_mem hP))
    · intro R' hR'
      rw [hRd]
      exact fullPath_le_pd tasks tf hfwi hpdmax R' hR'
  · rintro ⟨R, hfull, htR, hRd, _⟩
    obtain ⟨z, hR, hz⟩ := hfull
    obtain ⟨P, S, hsplit, hRP, hW, hdurs⟩ := rootPath_split hv hR t htR
    have hTP : TermPath tasks t (t :: S) :=
      walk_to_termPath hz hW (tf.sub t ht)
    have h1 := fwd_upper tasks tf hfwi P t hRP
    have h2 := bwd_upper tasks tf pd hbwi t (t :: S) hTP
    have hnn := slack_nonneg tasks hv tf hfwi hpdmax hbwi t ht
    rw [pathDur_cons] at h2
    omega

theorem duration_nonneg_of_mem_ids (tasks : List Task)
    (hnd : (taskIds tasks).Nodup) (hnn : NonnegDurations tasks)
    (t : String) (ht : t ∈ taskIds tasks) : 0 ≤ duration tasks t := by
  obtain ⟨tk, hmem, rfl⟩ := List.mem_map.mp ht
  rw [duration_eq_of_mem hnd hmem]
  exact hnn tk hmem

theorem pathDur_nonneg (tasks : List Task) (hnd : (taskIds tasks).Nodup)
    (hnn : NonnegDurations tasks) {P : List String} {t : String}
    (hP : RootPath tasks P t) : 0 ≤ pathDur tasks P := by
  apply List.sum_nonneg
  intro x hx
  obtain ⟨y, hy, rfl⟩ := List.mem_map.mp hx
  exact duration_nonneg_of_mem_ids tasks hnd hnn y (rootPath_mem_ids hP y hy)

theorem ef_le_terminal_aux (tasks : List Task) (hv : ValidInput tasks)
    (tf : TopoFacts tasks) {FW : FwdState}
    (hfwi : FwdInv tasks (topoOrder tasks) FW)
    (hnn : NonnegDurations tasks) :
    ∀ (n : Nat) (l1 : List String) (t : String) (l2 : List String),
      l2.length ≤ n → topoOrder tasks = l1 ++ t :: l2 →
      ∃ z, z ∈ endTasks tasks ∧ lookupD FW.EF t ≤ lookupD FW.EF z := by
  intro n
  induction n with
  | zero =>
      intro l1 t l2 hlen hdec
      have htmem : t ∈ topoOrder tasks := by
        rw [hdec]
        exact List.mem_append.mpr (Or.inr (List.mem_cons_self _ _))
      have hl2 : l2 = [] := List.length_eq_zero.mp (by omega)
      have hs : successors tasks t = [] := by
        rw [List.eq_nil_iff_forall_not_mem]
        intro s hsm
        have h1 := succs_after tasks hv tf hdec s hsm
        rw [hl2] at h1
        simp at h1
      exact ⟨t, (mem_endTasks tasks t).mpr ⟨tf.sub t htmem, hs⟩, le_refl _⟩
  | succ n ihn =>
      intro l1 t l2 hlen hdec
      have htmem : t ∈ topoOrder tasks := by
        rw [hdec]
        exact List.mem_append.mpr (Or.inr (List.mem_cons_self _ _))
      by_cases hs : successors tasks t = []
      · exact ⟨t, (mem_endTasks tasks t).mpr ⟨tf.sub t htmem, hs⟩, le_refl _⟩
      · obtain ⟨s, hsm⟩ := List.exists_mem_of_ne_nil _ hs
        have hsl2 : s ∈ l2 := succs_after tasks hv tf hdec s hsm
        obtain ⟨a, b, hab⟩ := List.append_of_mem hsl2
        have hdec2 : topoOrder tasks = (l1 ++ t :: a) ++ s :: b := by
          rw [hdec, hab]
          simp
        have hblen : b.length ≤ n := by
          have hlen2 : l2.length = a.length + b.length + 1 := by
            rw [hab]
            simp
            omega
          omega
        obtain ⟨z, hz, hzle⟩ := ihn (l1 ++ t :: a) s b hblen hdec2
        refine ⟨z, hz, le_trans ?_ hzle⟩
        -- EF t ≤ ES s ≤ EF s
        obtain ⟨hsid, htpred⟩ :=
          (mem_successors_iff_mem_predecessors hv.nodupIds).mp hsm
        have hsmem : s ∈ topoOrder tasks := tf.complete s hsid
        obtain ⟨he1, _, he3⟩ := hfwi.eqs s hsmem
        have hmax := he3 (by
          intro hc
          rw [hc] at htpred
          simp at htpred)
        have h1 : lookupD FW.EF t ≤ lookupD FW.ES s :=
          hmax.2 _ (List.mem_map.mpr ⟨t, htpred, rfl⟩)
        have hef : lookupD FW.EF s = lookupD FW.ES s + duration tasks s := by
          simp [lookupD, he1]
        have hd : 0 ≤ duration tasks s :=
          duration_nonneg_of_mem_ids tasks hv.nodupIds hnn s hsid
        omega

theorem ef_le_terminal (tasks : List Task) (hv : ValidInput tasks)
    (tf : TopoFacts tasks) {FW : FwdState}
    (hfwi : FwdInv tasks (topoOrder tasks) FW)
    (hnn : NonnegDurations tasks) (t : String) (ht : t ∈ topoOrder tasks) :
    ∃ z, z ∈ endTasks tasks ∧ lookupD FW.EF t ≤ lookupD FW.EF z := by
  obtain ⟨l1, l2, hdec⟩ := List.append_of_mem ht
  exact ef_le_terminal_aux tasks hv tf hfwi hnn l2.length l1 t l2 (le_refl _) hdec

/-! ## Correctness of the longest-path dynamic program -/

theorem lexLe_fst_le {a b : Int × Nat} (h : lexLe a b) : a.1 ≤ b.1 := by
  unfold lexLe at h
  omega

theorem bestInfo_correct_aux (tasks : List Task) (hv : ValidInput tasks)
    (tf : TopoFacts tasks) {FW : FwdState}
    (hfwi : FwdInv tasks (topoOrder tasks) FW) :
    ∀ (n : Nat) (l1 : List String) (t : String) (l2 : List String),
      l1.length ≤ n → topoOrder tasks = l1 ++ t :: l2 →
      ∃ info : PathInfo,
        dlookup (bestInfo tasks (topoOrder tasks)) t = some info ∧
        RootPath tasks info.path t ∧
        pathDur tasks info.path = info.total ∧
        info.total = lookupD FW.EF t ∧
        info.count = info.path.length := by
  have hdp := bestInfo_dpInv tasks tf
  intro n
  induction n with
  | zero =>
      intro l1 t l2 hlen hdec
      have htmem : t ∈ topoOrder tasks := by
        rw [hdec]
        exact List.mem_append.mpr (Or.inr (List.mem_cons_self _ _))
      have hl1 : l1 = [] := List.length_eq_zero.mp (by omega)
      have hp : predecessors tasks t = [] := by
        rw [List.eq_nil_iff_forall_not_mem]
        intro p hpm
        have h1 := tf.before l1 t l2 hdec p hpm
        rw [hl1] at h1
        simp at h1
      obtain ⟨info, hlk, hnil, _⟩ := hdp.eqs t htmem
      obtain ⟨he1, he2, _⟩ := hfwi.eqs t htmem
      have hes : lookupD FW.ES t = 0 := by simp [lookupD, he2 hp]
      have hef : lookupD FW.EF t = lookupD FW.ES t + duration tasks t := by
        simp [lookupD, he1]
      refine ⟨info, hlk, ?_, ?_, ?_, ?_⟩ <;> rw [hnil hp]
      · exact RootPath.root t (tf.sub t htmem) hp
      · exact pathDur_single tasks t
      · show duration tasks t = lookupD FW.EF t
        rw [hef, hes]
        omega
      · rfl
  | succ n ihn =>
      intro l1 t l2 hlen hdec
      have htmem : t ∈ topoOrder tasks := by
        rw [hdec]
        exact List.mem_append.mpr (Or.inr (List.mem_cons_self _ _))
      obtain ⟨info, hlk, hnil, hcons⟩ := hdp.eqs t htmem
      obtain ⟨he1, he2, he3⟩ := hfwi.eqs t htmem
      have hef : lookupD FW.EF t = lookupD FW.ES t + duration tasks t := by
        simp [lookupD, he1]
      by_cases hp : predecessors tasks t = []
      · have hes : lookupD FW.ES t = 0 := by simp [lookupD, he2 hp]
        refine ⟨info, hlk, ?_, ?_, ?_, ?_⟩ <;> rw [hnil hp]
        · exact RootPath.root t (tf.sub t htmem) hp
        · exact pathDur_single tasks t
        · show duration tasks t = lookupD FW.EF t
          rw [hef, hes]
          omega
        · rfl
      · -- the inductive hypothesis applies to every predecessor of `t`
        have hIH : ∀ q ∈ predecessors tasks t,
            ∃ infoq : PathInfo,
              dlookup (bestInfo tasks (topoOrder tasks)) q = some infoq ∧
              RootPath tasks infoq.path q ∧
              pathDur tasks infoq.path = infoq.total ∧
              infoq.total = lookupD FW.EF q ∧
              infoq.count = infoq.path.length := by
          intro q hq
          have hql1 : q ∈ l1 := tf.before l1 t l2 hdec q hq
          obtain ⟨a, b, hab⟩ := List.append_of_mem hql1
          have hdec2 : topoOrder tasks = a ++ q :: (b ++ t :: l2) := by
            rw [hdec, hab]
            simp
          have halen : a.length ≤ n := by
            have h1 : l1.length = a.length + b.length + 1 := by
              rw [hab]
              simp
              omega
            omega
          exact ihn a q (b ++ t :: l2) halen hdec2
        obtain ⟨l1p, p, l2p, hpdec, hfirst, hall, hext⟩ := hcons hp
        have hpmem : p ∈ predecessors tasks t := by
          rw [hpdec]
          exact List.mem_append.mpr (Or.inr (List.mem_cons_self _ _))
        obtain ⟨infop, hplk, hpRP, hpdur, hpef, hpcnt⟩ := hIH p hpmem
        have hgetp : (dlookup (bestInfo tasks (topoOrder tasks)) p).getD
            defaultInfo = infop := by
          rw [hplk]
          rfl
        rw [hgetp] at hext
        -- the chosen predecessor attains the maximal EF among predecessors
        have hmax := he3 hp
        have hub : lookupD FW.EF p ≤ lookupD FW.ES t :=
          hmax.2 _ (List.mem_map.mpr ⟨p, hpmem, rfl⟩)
        have hlb : lookupD FW.ES t ≤ lookupD FW.EF p := by
          obtain ⟨q0, hq0m, hq0eq⟩ := List.mem_map.mp hmax.1
          obtain ⟨infoq0, hq0lk, _, _, hq0ef, _⟩ := hIH q0 hq0m
          have hkey0 : infoKey (bestInfo tasks (topoOrder tasks)) q0
              = (infoq0.total, infoq0.count) := by
            unfold infoKey
            rw [hq0lk]
            rfl
          have hkeyp : infoKey (bestInfo tasks (topoOrder tasks)) p
              = (infop.total, infop.count) := by
            unfold infoKey
            rw [hplk]
            rfl
          have hle := (keyGt_eq_false_iff _ _).mp (hall q0 hq0m)
          rw [hkey0, hkeyp] at hle
          have h1 := lexLe_fst_le hle
          simp only at h1
          omega
        have hest : lookupD FW.ES t = lookupD FW.EF p := le_antisymm hlb hub
        refine ⟨info, hlk, ?_, ?_, ?_, ?_⟩ <;> rw [hext]
        · exact RootPath.extend infop.path p t hpRP (tf.sub t htmem) hpmem
        · rw [pathDur_append_one, hpdur]
        · rw [hef, hest, hpef]
        · simp [hpcnt]

theorem bestInfo_correct (tasks : List Task) (hv : ValidInput tasks)
    (tf : TopoFacts tasks) {FW : FwdState}
    (hfwi : FwdInv tasks (topoOrder tasks) FW)
    (t : String) (ht : t ∈ topoOrder tasks) :
    ∃ info : PathInfo,
      dlookup (bestInfo tasks (topoOrder tasks)) t = some info ∧
      RootPath tasks info.path t ∧
      pathDur tasks info.path = info.total ∧
      info.total = lookupD FW.EF t ∧
      info.count = info.path.length := by
  obtain ⟨l1, l2, hdec⟩ := List.append_of_mem ht
  exact bestInfo_correct_aux tasks hv tf hfwi l1.length l1 t l2 (le_refl _) hdec

theorem selection_facts (tasks : List Task) (hv : ValidInput tasks)
    (tf : TopoFacts tasks) {FW : FwdState} {pd : Int}
    (hfwi : FwdInv tasks (topoOrder tasks) FW)
    (hpdmax : IsMaxOf pd ((topoOrder tasks).map (fun t => lookupD FW.EF t)))
    (hnn : NonnegDurations tasks) :
    ∃ l1 z l2 info,
      endTasks tasks = l1 ++ z :: l2 ∧
      dlookup (bestInfo tasks (topoOrder tasks)) z = some info ∧
      selectCritical (bestInfo tasks (topoOrder tasks)) (endTasks tasks)
        = info.path ∧
      (∀ q ∈ l1, keyGt (infoKey (bestInfo tasks (topoOrder tasks)) z)
        (infoKey (bestInfo tasks (topoOrder tasks)) q) = true) ∧
      (∀ q ∈ endTasks tasks, keyGt (infoKey (bestInfo tasks (topoOrder tasks)) q)
        (infoKey (bestInfo tasks (topoOrder tasks)) z) = false) ∧
      lookupD FW.EF z = pd ∧
      FullPath tasks info.path ∧
      pathDur tasks info.path = pd := by
  -- a task attaining the project duration, and a terminal dominating it
  have hex : ∃ x ∈ topoOrder tasks, lookupD FW.EF x = pd :=
    List.mem_map.mp hpdmax.1
  obtain ⟨tstar, htmem, htef⟩ := hex
  obtain ⟨z0, hz0end, hz0ge⟩ := ef_le_terminal tasks hv tf hfwi hnn tstar htmem
  have hz0mem : z0 ∈ topoOrder tasks :=
    tf.complete z0 ((mem_endTasks tasks z0).mp hz0end).1
  have hz0le : lookupD FW.EF z0 ≤ pd :=
    hpdmax.2 _ (List.mem_map.mpr ⟨z0, hz0mem, rfl⟩)
  have hz0pd : lookupD FW.EF z0 = pd := by omega
  obtain ⟨info0, hlk0, hRP0, hdur0, hef0, hcnt0⟩ :=
    bestInfo_correct tasks hv tf hfwi z0 hz0mem
  have hkey0 : infoKey (bestInfo tasks (topoOrder tasks)) z0
      = (info0.total, info0.count) := by
    unfold infoKey
    rw [hlk0]
    rfl
  have hpdnn : 0 ≤ pd := by
    have h1 := pathDur_nonneg tasks hv.nodupIds hnn hRP0
    omega
  have hcnt0pos : 1 ≤ info0.count := by
    rw [hcnt0]
    have h1 := rootPath_ne_nil hRP0
    cases hP : info0.path with
    | nil => exact absurd hP h1
    | cons a as => simp
  have hz0beats : keyGt (infoKey (bestInfo tasks (topoOrder tasks)) z0)
      (0, 0) = true := by
    rw [hkey0, keyGt_iff]
    simp only
    omega
  rcases selectCritical_spec (bestInfo tasks (topoOrder tasks))
      (endTasks tasks) with ⟨_, hnb⟩ | ⟨l1, z, l2, hdec, hres, _, hl1, hall⟩
  · exact absurd (hnb z0 hz0end) (by rw [hz0beats]; simp)
  · have hzend : z ∈ endTasks tasks := by
      rw [hdec]
      exact List.mem_append.mpr (Or.inr (List.mem_cons_self _ _))
    have hzmem : z ∈ topoOrder tasks :=
      tf.complete z ((mem_endTasks tasks z).mp hzend).1
    obtain ⟨infoz, hlkz, hRPz, hdurz, hefz, _⟩ :=
      bestInfo_correct tasks hv tf hfwi z hzmem
    have hkeyz : infoKey (bestInfo tasks (topoOrder tasks)) z
        = (infoz.total, infoz.count) := by
      unfold infoKey
      rw [hlkz]
      rfl
    have hzle : lookupD FW.EF z ≤ pd :=
      hpdmax.2 _ (List.mem_map.mpr ⟨z, hzmem, rfl⟩)
    have hge : pd ≤ lookupD FW.EF z := by
      have h1 := (keyGt_eq_false_iff _ _).mp (hall z0 hz0end)
      rw [hkey0, hkeyz] at h1
      have h2 := lexLe_fst_le h1
      simp only at h2
      omega
    have hzpd : lookupD FW.EF z = pd := le_antisymm hzle hge
    have hresz : selectCritical (bestInfo tasks (topoOrder tasks))
        (endTasks tasks) = infoz.path := by
      rw [hres, hlkz]
      rfl
    refine ⟨l1, z, l2, infoz, hdec, hlkz, hresz, hl1, hall, hzpd, ?_, ?_⟩
    · exact ⟨z, hRPz, ((mem_endTasks tasks z).mp hzend).2⟩
    · omega

theorem getLast_endTask (tasks : List Task) (hv : ValidInput tasks)
    (tf : TopoFacts tasks) (hne : tasks ≠ []) :
    ∃ z, z ∈ endTasks tasks ∧ z ∈ topoOrder tasks := by
  have htne : topoOrder tasks ≠ [] := topoOrder_ne_nil tasks tf hne
  refine ⟨(topoOrder tasks).getLast htne, ?_, List.getLast_mem htne⟩
  rw [mem_endTasks]
  have hdec : topoOrder tasks
      = (topoOrder tasks).dropLast ++ [(topoOrder tasks).getLast htne] :=
    (List.dropLast_append_getLast htne).symm
  refine ⟨tf.sub _ (List.getLast_mem htne), ?_⟩
  have hafter := succs_after tasks hv tf hdec
  rw [List.eq_nil_iff_forall_not_mem]
  intro s hs
  have h1 := hafter s hs
  simp at h1

theorem isMaxOf_over_ids (tasks : List Task) (tf : TopoFacts tasks)
    (f : String → Int) {v : Int}
    (h : IsMaxOf v ((topoOrder tasks).map f)) :
    IsMaxOf v ((taskIds tasks).map f) := by
  constructor
  · obtain ⟨x, hx, he⟩ := List.mem_map.mp h.1
    exact List.mem_map.mpr ⟨x, tf.sub x hx, he⟩
  · intro x hx
    obtain ⟨y, hy, he⟩ := List.mem_map.mp hx
    exact he ▸ h.2 _ (List.mem_map.mpr ⟨y, tf.complete y hy, rfl⟩)

/-! ## The claims -/

/-- Claim C1: the spec demands that an input whose graph contains a cycle or
a predecessor id not present among the tasks fail with a
`MalformedGraphError` before any pass runs, with no silent truncation of the
task set.  The code contains no such check.  On the cyclic input
`A(3,[]), B(1,[C]), C(1,[B])` the topological sort silently truncates to
`["A"]`, every pass runs on the truncated order, and the computation ends
with a `KeyError` for `"B"` raised from the slack comprehension — not a
`MalformedGraphError`.  The dangling reference `A(3,[]), B(1,[X])` behaves
the same way. -/
theorem C1_code_bug :
    topoOrder [⟨"A", 3, []⟩, ⟨"B", 1, ["C"]⟩, ⟨"C", 1, ["B"]⟩] = ["A"] ∧
    computeSchedule [⟨"A", 3, []⟩, ⟨"B", 1, ["C"]⟩, ⟨"C", 1, ["B"]⟩]
      = Except.error (PyError.keyError "B") ∧
    computeSchedule [⟨"A", 3, []⟩, ⟨"B", 1, ["C"]⟩, ⟨"C", 1, ["B"]⟩]
      ≠ Except.error PyError.malformedGraphError ∧
    topoOrder [⟨"A", 3, []⟩, ⟨"B", 1, ["X"]⟩] = ["A"] ∧
    computeSchedule [⟨"A", 3, []⟩, ⟨"B", 1, ["X"]⟩]
      = Except.error (PyError.keyError "B") ∧
    computeSchedule [⟨"A", 3, []⟩, ⟨"B", 1, ["X"]⟩]
      ≠ Except.error PyError.malformedGraphError := by
  refine ⟨rfl, rfl, ?_, rfl, rfl, ?_⟩
  · intro h
    rw [show computeSchedule [⟨"A", 3, []⟩, ⟨"B", 1, ["C"]⟩, ⟨"C", 1, ["B"]⟩]
        = Except.error (PyError.keyError "B") from rfl] at h
    injection h with h2
    exact PyError.noConfusion h2
  · intro h
    rw [show computeSchedule [⟨"A", 3, []⟩, ⟨"B", 1, ["X"]⟩]
        = Except.error (PyError.keyError "B") from rfl] at h
    injection h with h2
    exact PyError.noConfusion h2

/-- Claim C2: the critical path is selected by a dynamic program over
`topo_order`: a zero-predecessor task gets `best = (duration, 1, [task])`;
otherwise the first predecessor whose `(total_duration, node_count)` pair is
lexicographically maximal is chosen and its stored path extended; among the
terminal tasks the first one whose `best` tuple is lexicographically
greatest (and beats the initial `(0, 0)`) wins, earlier terminals being
preferred on ties. -/
theorem C2_critical_dp (tasks : List Task) (hv : ValidInput tasks) :
    (∀ t ∈ topoOrder tasks, ∃ info : PathInfo,
      dlookup (bestInfo tasks (topoOrder tasks)) t = some info ∧
      (predecessors tasks t = [] → info = ⟨duration tasks t, 1, [t]⟩) ∧
      (predecessors tasks t ≠ [] → ∃ l1 p l2,
        predecessors tasks t = l1 ++ p :: l2 ∧
        (∀ q ∈ l1, keyGt (infoKey (bestInfo tasks (topoOrder tasks)) p)
          (infoKey (bestInfo tasks (topoOrder tasks)) q) = true) ∧
        (∀ q ∈ predecessors tasks t,
          keyGt (infoKey (bestInfo tasks (topoOrder tasks)) q)
            (infoKey (bestInfo tasks (topoOrder tasks)) p) = false) ∧
        info = ⟨((dlookup (bestInfo tasks (topoOrder tasks)) p).getD
                  defaultInfo).total + duration tasks t,
                ((dlookup (bestInfo tasks (topoOrder tasks)) p).getD
                  defaultInfo).count + 1,
                ((dlookup (bestInfo tasks (topoOrder tasks)) p).getD
                  defaultInfo).path ++ [t]⟩)) ∧
    ((selectCritical (bestInfo tasks (topoOrder tasks)) (endTasks tasks) = [] ∧
        ∀ t ∈ endTasks tasks,
          keyGt (infoKey (bestInfo tasks (topoOrder tasks)) t) (0, 0) = false) ∨
      ∃ l1 z l2, endTasks tasks = l1 ++ z :: l2 ∧
        selectCritical (bestInfo tasks (topoOrder tasks)) (endTasks tasks)
          = ((dlookup (bestInfo tasks (topoOrder tasks)) z).getD
              defaultInfo).path ∧
        keyGt (infoKey (bestInfo tasks (topoOrder tasks)) z) (0, 0) = true ∧
        (∀ q ∈ l1, keyGt (infoKey (bestInfo tasks (topoOrder tasks)) z)
          (infoKey (bestInfo tasks (topoOrder tasks)) q) = true) ∧
        (∀ q ∈ endTasks tasks,
          keyGt (infoKey (bestInfo tasks (topoOrder tasks)) q)
            (infoKey (bestInfo tasks (topoOrder tasks)) z) = false)) := by
  have tf := topoFacts tasks hv
  exact ⟨(bestInfo_dpInv tasks tf).eqs, selectCritical_spec _ _⟩

/-- Witness for C2 on the concrete input `A(2,[]), B(3,[A])`. -/
theorem C2_critical_dp_witness :
    ∃ info : PathInfo,
      dlookup (bestInfo [⟨"A", 2, []⟩, ⟨"B", 3, ["A"]⟩]
        (topoOrder [⟨"A", 2, []⟩, ⟨"B", 3, ["A"]⟩])) "B" = some info ∧
      (predecessors [⟨"A", 2, []⟩, ⟨"B", 3, ["A"]⟩] "B" = [] →
        info = ⟨duration [⟨"A", 2, []⟩, ⟨"B", 3, ["A"]⟩] "B", 1, ["B"]⟩) ∧
      (predecessors [⟨"A", 2, []⟩, ⟨"B", 3, ["A"]⟩] "B" ≠ [] → ∃ l1 p l2,
        predecessors [⟨"A", 2, []⟩, ⟨"B", 3, ["A"]⟩] "B" = l1 ++ p :: l2 ∧
        (∀ q ∈ l1, keyGt (infoKey (bestInfo [⟨"A", 2, []⟩, ⟨"B", 3, ["A"]⟩]
            (topoOrder [⟨"A", 2, []⟩, ⟨"B", 3, ["A"]⟩])) p)
          (infoKey (bestInfo [⟨"A", 2, []⟩, ⟨"B", 3, ["A"]⟩]
            (topoOrder [⟨"A", 2, []⟩, ⟨"B", 3, ["A"]⟩])) q) = true) ∧
        (∀ q ∈ predecessors [⟨"A", 2, []⟩, ⟨"B", 3, ["A"]⟩] "B",
          keyGt (infoKey (bestInfo [⟨"A", 2, []⟩, ⟨"B", 3, ["A"]⟩]
            (topoOrder [⟨"A", 2, []⟩, ⟨"B", 3, ["A"]⟩])) q)
            (infoKey (bestInfo [⟨"A", 2, []⟩, ⟨"B", 3, ["A"]⟩]
              (topoOrder [⟨"A", 2, []⟩, ⟨"B", 3, ["A"]⟩])) p) = false) ∧
        info = ⟨((dlookup (bestInfo [⟨"A", 2, []⟩, ⟨"B", 3, ["A"]⟩]
                  (topoOrder [⟨"A", 2, []⟩, ⟨"B", 3, ["A"]⟩])) p).getD
                  defaultInfo).total
                  + duration [⟨"A", 2, []⟩, ⟨"B", 3, ["A"]⟩] "B",
                ((dlookup (bestInfo [⟨"A", 2, []⟩, ⟨"B", 3, ["A"]⟩]
                  (topoOrder [⟨"A", 2, []⟩, ⟨"B", 3, ["A"]⟩])) p).getD
                  defaultInfo).count + 1,
                ((dlookup (bestInfo [⟨"A", 2, []⟩, ⟨"B", 3, ["A"]⟩]
                  (topoOrder [⟨"A", 2, []⟩, ⟨"B", 3, ["A"]⟩])) p).getD
                  defaultInfo).path ++ ["B"]⟩) := by
  have hv : ValidInput [⟨"A", 2, []⟩, ⟨"B", 3, ["A"]⟩] :=
    ⟨by decide, by decide,
      acyclic_of_rank _ (fun t => if t = "B" then 1 else 0) (by decide)⟩
  exact (C2_critical_dp [⟨"A", 2, []⟩, ⟨"B", 3, ["A"]⟩] hv).1 "B" (by decide)

/-- Claim C3: for every acyclic input whose predecessor references all
exist, `topo_order` has one entry per task, every predecessor appears
strictly before each of its dependents, and the order is exactly the one
computed by Kahn's algorithm with a FIFO queue seeded in declaration
order. -/
theorem C3_topo (tasks : List Task) (hv : ValidInput tasks) :
    (topoOrder tasks).length = tasks.length ∧
    (∀ l1 t l2, topoOrder tasks = l1 ++ t :: l2 →
      ∀ p ∈ predecessors tasks t, p ∈ l1) ∧
    topoOrder tasks = kahnLoop tasks.length (initDegree tasks)
      ((taskIds tasks).filter (fun t => initDegree tasks t == 0)) [] tasks := by
  have tf := topoFacts tasks hv
  exact ⟨tf.len, tf.before, rfl⟩

/-- Witness for C3 on the concrete input `A(2,[]), B(3,[A])`. -/
theorem C3_topo_witness :
    (topoOrder [⟨"A", 2, []⟩, ⟨"B", 3, ["A"]⟩]).length
      = ([⟨"A", 2, []⟩, ⟨"B", 3, ["A"]⟩] : List Task).length ∧
    (∀ l1 t l2, topoOrder [⟨"A", 2, []⟩, ⟨"B", 3, ["A"]⟩] = l1 ++ t :: l2 →
      ∀ p ∈ predecessors [⟨"A", 2, []⟩, ⟨"B", 3, ["A"]⟩] t, p ∈ l1) ∧
    topoOrder [⟨"A", 2, []⟩, ⟨"B", 3, ["A"]⟩]
      = kahnLoop ([⟨"A", 2, []⟩, ⟨"B", 3, ["A"]⟩] : List Task).length
        (initDegree [⟨"A", 2, []⟩, ⟨"B", 3, ["A"]⟩])
        ((taskIds [⟨"A", 2, []⟩, ⟨"B", 3, ["A"]⟩]).filter
          (fun t => initDegree [⟨"A", 2, []⟩, ⟨"B", 3, ["A"]⟩] t == 0))
        [] [⟨"A", 2, []⟩, ⟨"B", 3, ["A"]⟩] := by
  have hv : ValidInput [⟨"A", 2, []⟩, ⟨"B", 3, ["A"]⟩] :=
    ⟨by decide, by decide,
      acyclic_of_rank _ (fun t => if t = "B" then 1 else 0) (by decide)⟩
  exact C3_topo [⟨"A", 2, []⟩, ⟨"B", 3, ["A"]⟩] hv

/-- Claim C4: on a valid nonempty input the computation succeeds; the
forward pass gives every task with no predecessors `ES = 0`, every other
task `ES = max(EF[p])` over its predecessors, always `EF = ES + duration`,
and the project duration is the maximum `EF` over all tasks. -/
theorem C4_forward (tasks : List Task) (hv : ValidInput tasks)
    (hne : tasks ≠ []) :
    ∃ s : Schedule, computeSchedule tasks = Except.ok s ∧
      (∀ t ∈ topoOrder tasks,
        dlookup s.EF t = some (lookupD s.ES t + duration tasks t) ∧
        (predecessors tasks t = [] → dlookup s.ES t = some 0) ∧
        (predecessors tasks t ≠ [] →
          IsMaxOf (lookupD s.ES t)
            ((predecessors tasks t).map (fun p => lookupD s.EF p)))) ∧
      IsMaxOf s.projectDuration
        ((taskIds tasks).map (fun t => lookupD s.EF t)) := by
  have tf := topoFacts tasks hv
  obtain ⟨FW, BW, pd, _, hfwi, _, hpdmax, _, hbwi, hrun⟩ :=
    computeSchedule_run tasks hv hne
  refine ⟨_, hrun, ?_, ?_⟩
  · intro t ht
    exact hfwi.eqs t ht
  · exact isMaxOf_over_ids tasks tf _ hpdmax

/-- Witness for C4 on the concrete input `A(2,[]), B(3,[A])`. -/
theorem C4_forward_witness :
    ([⟨"A", 2, []⟩, ⟨"B", 3, ["A"]⟩] : List Task) ≠ [] ∧
    ∃ s : Schedule,
      computeSchedule [⟨"A", 2, []⟩, ⟨"B", 3, ["A"]⟩] = Except.ok s ∧
      (∀ t ∈ topoOrder [⟨"A", 2, []⟩, ⟨"B", 3, ["A"]⟩],
        dlookup s.EF t = some (lookupD s.ES t
          + duration [⟨"A", 2, []⟩, ⟨"B", 3, ["A"]⟩] t) ∧
        (predecessors [⟨"A", 2, []⟩, ⟨"B", 3, ["A"]⟩] t = [] →
          dlookup s.ES t = some 0) ∧
        (predecessors [⟨"A", 2, []⟩, ⟨"B", 3, ["A"]⟩] t ≠ [] →
          IsMaxOf (lookupD s.ES t)
            ((predecessors [⟨"A", 2, []⟩, ⟨"B", 3, ["A"]⟩] t).map
              (fun p => lookupD s.EF p)))) ∧
      IsMaxOf s.projectDuration
        ((taskIds [⟨"A", 2, []⟩, ⟨"B", 3, ["A"]⟩]).map
          (fun t => lookupD s.EF t)) := by
  have hv : ValidInput [⟨"A", 2, []⟩, ⟨"B", 3, ["A"]⟩] :=
    ⟨by decide, by decide,
      acyclic_of_rank _ (fun t => if t = "B" then 1 else 0) (by decide)⟩
  exact ⟨by decide, C4_forward [⟨"A", 2, []⟩, ⟨"B", 3, ["A"]⟩] hv (by decide)⟩

/-- Claim C5: on a valid nonempty input the backward pass gives every task
with no successors `LF = project_duration`, every other task
`LF = min(LS[s])` over its successors, always `LS = LF − duration`, and the
slack table is `{t: LS[t] − ES[t]}` over the tasks in declaration order. -/
theorem C5_backward (tasks : List Task) (hv : ValidInput tasks)
    (hne : tasks ≠ []) :
    ∃ s : Schedule, computeSchedule tasks = Except.ok s ∧
      (∀ t ∈ topoOrder tasks,
        dlookup s.LS t = some (lookupD s.LF t - duration tasks t) ∧
        (successors tasks t = [] → dlookup s.LF t = some s.projectDuration) ∧
        (successors tasks t ≠ [] →
          IsMinOf (lookupD s.LF t)
            ((successors tasks t).map (fun u => lookupD s.LS u)))) ∧
      s.slack = (taskIds tasks).map
        (fun t => (t, lookupD s.LS t - lookupD s.ES t)) := by
  obtain ⟨FW, BW, pd, _, hfwi, _, hpdmax, _, hbwi, hrun⟩ :=
    computeSchedule_run tasks hv hne
  refine ⟨_, hrun, ?_, rfl⟩
  intro t ht
  exact hbwi.eqs t (List.mem_reverse.mpr ht)

/-- Witness for C5 on the concrete input `A(2,[]), B(3,[A])`. -/
theorem C5_backward_witness :
    ([⟨"A", 2, []⟩, ⟨"B", 3, ["A"]⟩] : List Task) ≠ [] ∧
    ∃ s : Schedule,
      computeSchedule [⟨"A", 2, []⟩, ⟨"B", 3, ["A"]⟩] = Except.ok s ∧
      (∀ t ∈ topoOrder [⟨"A", 2, []⟩, ⟨"B", 3, ["A"]⟩],
        dlookup s.LS t = some (lookupD s.LF t
          - duration [⟨"A", 2, []⟩, ⟨"B", 3, ["A"]⟩] t) ∧
        (successors [⟨"A", 2, []⟩, ⟨"B", 3, ["A"]⟩] t = [] →
          dlookup s.LF t = some s.projectDuration) ∧
        (successors [⟨"A", 2, []⟩, ⟨"B", 3, ["A"]⟩] t ≠ [] →
          IsMinOf (lookupD s.LF t)
            ((successors [⟨"A", 2, []⟩, ⟨"B", 3, ["A"]⟩] t).map
              (fun u => lookupD s.LS u)))) ∧
      s.slack = (taskIds [⟨"A", 2, []⟩, ⟨"B", 3, ["A"]⟩]).map
        (fun t => (t, lookupD s.LS t - lookupD s.ES t)) := by
  have hv : ValidInput [⟨"A", 2, []⟩, ⟨"B", 3, ["A"]⟩] :=
    ⟨by decide, by decide,
      acyclic_of_rank _ (fun t => if t = "B" then 1 else 0) (by decide)⟩
  exact ⟨by decide, C5_backward [⟨"A", 2, []⟩, ⟨"B", 3, ["A"]⟩] hv (by decide)⟩

/-- Claim C6: on a valid nonempty input with non-negative durations every
task has `slack ≥ 0`, `slack = 0` holds exactly for the tasks lying on a
maximum-duration root-to-terminal path, and the selected critical path is
one such path of maximal total duration. -/
theorem C6_slack (tasks : List Task) (hv : ValidInput tasks)
    (hnn : NonnegDurations tasks) (hne : tasks ≠ []) :
    ∃ s : Schedule, computeSchedule tasks = Except.ok s ∧
      (∀ t ∈ taskIds tasks,
        dlookup s.slack t = some (lookupD s.LS t - lookupD s.ES t) ∧
        0 ≤ lookupD s.LS t - lookupD s.ES t ∧
        (lookupD s.LS t - lookupD s.ES t = 0 ↔
          ∃ R, FullPath tasks R ∧ t ∈ R ∧
            pathDur tasks R = s.projectDuration ∧
            ∀ Rp, FullPath tasks Rp → pathDur tasks Rp ≤ pathDur tasks R)) ∧
      FullPath tasks s.criticalPath ∧
      pathDur tasks s.criticalPath = s.projectDuration ∧
      (∀ Rp, FullPath tasks Rp →
        pathDur tasks Rp ≤ pathDur tasks s.criticalPath) := by
  have tf := topoFacts tasks hv
  obtain ⟨FW, BW, pd, _, hfwi, _, hpdmax, _, hbwi, hrun⟩ :=
    computeSchedule_run tasks hv hne
  obtain ⟨l1, z, l2, info, hdec, hlkz, hsel, hstr, hall, hzpd, hfull, hdur⟩ :=
    selection_facts tasks hv tf hfwi hpdmax hnn
  refine ⟨_, hrun, ?_, ?_, ?_, ?_⟩
  · intro t ht
    have htopo := tf.complete t ht
    refine ⟨?_, ?_, ?_⟩
    · exact dlookup_map_pair _ _ hv.nodupIds t ht
    · exact slack_nonneg tasks hv tf hfwi hpdmax hbwi t htopo
    · exact slack_zero_iff tasks hv tf hfwi hpdmax hbwi t htopo
  · show FullPath tasks
      (selectCritical (bestInfo tasks (topoOrder tasks)) (endTasks tasks))
    rw [hsel]
    exact hfull
  · show pathDur tasks
      (selectCritical (bestInfo tasks (topoOrder tasks)) (endTasks tasks)) = pd
    rw [hsel]
    exact hdur
  · intro Rp hRp
    show pathDur tasks Rp ≤ pathDur tasks
      (selectCritical (bestInfo tasks (topoOrder tasks)) (endTasks tasks))
    rw [hsel, hdur]
    exact fullPath_le_pd tasks tf hfwi hpdmax Rp hRp

/-- Witness for C6 on the concrete input `A(2,[]), B(3,[A])`. -/
theorem C6_slack_witness :
    NonnegDurations [⟨"A", 2, []⟩, ⟨"B", 3, ["A"]⟩] ∧
    ∃ s : Schedule,
      computeSchedule [⟨"A", 2, []⟩, ⟨"B", 3, ["A"]⟩] = Except.ok s ∧
      (∀ t ∈ taskIds [⟨"A", 2, []⟩, ⟨"B", 3, ["A"]⟩],
        dlookup s.slack t = some (lookupD s.LS t - lookupD s.ES t) ∧
        0 ≤ lookupD s.LS t - lookupD s.ES t ∧
        (lookupD s.LS t - lookupD s.ES t = 0 ↔
          ∃ R, FullPath [⟨"A", 2, []⟩, ⟨"B", 3, ["A"]⟩] R ∧ t ∈ R ∧
            pathDur [⟨"A", 2, []⟩, ⟨"B", 3, ["A"]⟩] R = s.projectDuration ∧
            ∀ Rp, FullPath [⟨"A", 2, []⟩, ⟨"B", 3, ["A"]⟩] Rp →
              pathDur [⟨"A", 2, []⟩, ⟨"B", 3, ["A"]⟩] Rp
                ≤ pathDur [⟨"A", 2, []⟩, ⟨"B", 3, ["A"]⟩] R)) ∧
      FullPath [⟨"A", 2, []⟩, ⟨"B", 3, ["A"]⟩] s.criticalPath ∧
      pathDur [⟨"A", 2, []⟩, ⟨"B", 3, ["A"]⟩] s.criticalPath
        = s.projectDuration ∧
      (∀ Rp, FullPath [⟨"A", 2, []⟩, ⟨"B", 3, ["A"]⟩] Rp →
        pathDur [⟨"A", 2, []⟩, ⟨"B", 3, ["A"]⟩] Rp
          ≤ pathDur [⟨"A", 2, []⟩, ⟨"B", 3, ["A"]⟩] s.criticalPath) := by
  have hv : ValidInput [⟨"A", 2, []⟩, ⟨"B", 3, ["A"]⟩] :=
    ⟨by decide, by decide,
      acyclic_of_rank _ (fun t => if t = "B" then 1 else 0) (by decide)⟩
  have hnn : NonnegDurations [⟨"A", 2, []⟩, ⟨"B", 3, ["A"]⟩] := by
    unfold NonnegDurations
    decide
  exact ⟨hnn, C6_slack [⟨"A", 2, []⟩, ⟨"B", 3, ["A"]⟩] hv hnn (by decide)⟩

/-- Claim C7: on a valid nonempty input with non-negative durations the
project duration equals the sum of the durations on the selected critical
path, the maximum `EF` over all tasks, and the maximum `LF` over terminal
tasks. -/
theorem C7_duration (tasks : List Task) (hv : ValidInput tasks)
    (hnn : NonnegDurations tasks) (hne : tasks ≠ []) :
    ∃ s : Schedule, computeSchedule tasks = Except.ok s ∧
      s.projectDuration = (s.criticalPath.map (duration tasks)).sum ∧
      IsMaxOf s.projectDuration
        ((taskIds tasks).map (fun t => lookupD s.EF t)) ∧
      IsMaxOf s.projectDuration
        ((endTasks tasks).map (fun z => lookupD s.LF z)) := by
  have tf := topoFacts tasks hv
  obtain ⟨FW, BW, pd, _, hfwi, _, hpdmax, _, hbwi, hrun⟩ :=
    computeSchedule_run tasks hv hne
  obtain ⟨l1, z, l2, info, hdec, hlkz, hsel, hstr, hall, hzpd, hfull, hdur⟩ :=
    selection_facts tasks hv tf hfwi hpdmax hnn
  have hLFz : ∀ y ∈ endTasks tasks, lookupD BW.LF y = pd := by
    intro y hy
    obtain ⟨hyid, hysucc⟩ := (mem_endTasks tasks y).mp hy
    have hytopo := tf.complete y hyid
    obtain ⟨_, he2, _⟩ := hbwi.eqs y (List.mem_reverse.mpr hytopo)
    simp [lookupD, he2 hysucc]
  refine ⟨_, hrun, ?_, ?_, ?_⟩
  · show pd = ((selectCritical (bestInfo tasks (topoOrder tasks))
      (endTasks tasks)).map (duration tasks)).sum
    rw [hsel]
    exact hdur.symm
  · exact isMaxOf_over_ids tasks tf _ hpdmax
  · constructor
    · obtain ⟨z0, hz0end, _⟩ := getLast_endTask tasks hv tf hne
      exact List.mem_map.mpr ⟨z0, hz0end, hLFz z0 hz0end⟩
    · intro x hx
      obtain ⟨y, hy, rfl⟩ := List.mem_map.mp hx
      show lookupD BW.LF y ≤ pd
      rw [hLFz y hy]

/-- Witness for C7 on the concrete input `A(2,[]), B(3,[A])`. -/
theorem C7_duration_witness :
    NonnegDurations [⟨"A", 2, []⟩, ⟨"B", 3, ["A"]⟩] ∧
    ∃ s : Schedule,
      computeSchedule [⟨"A", 2, []⟩, ⟨"B", 3, ["A"]⟩] = Except.ok s ∧
      s.projectDuration = (s.criticalPath.map
        (duration [⟨"A", 2, []⟩, ⟨"B", 3, ["A"]⟩])).sum ∧
      IsMaxOf s.projectDuration
        ((taskIds [⟨"A", 2, []⟩, ⟨"B", 3, ["A"]⟩]).map
          (fun t => lookupD s.EF t)) ∧
      IsMaxOf s.projectDuration
        ((endTasks [⟨"A", 2, []⟩, ⟨"B", 3, ["A"]⟩]).map
          (fun z => lookupD s.LF z)) := by
  have hv : ValidInput [⟨"A", 2, []⟩, ⟨"B", 3, ["A"]⟩] :=
    ⟨by decide, by decide,
      acyclic_of_rank _ (fun t => if t = "B" then 1 else 0) (by decide)⟩
  have hnn : NonnegDurations [⟨"A", 2, []⟩, ⟨"B", 3, ["A"]⟩] := by
    unfold NonnegDurations
    decide
  exact ⟨hnn, C7_duration [⟨"A", 2, []⟩, ⟨"B", 3, ["A"]⟩] hv hnn (by decide)⟩

/-- Claim C8, counterexample: on zero tasks the computation does fail and
produces no `Schedule`, but not with the spec's `EmptyInputError`: the error
is Python's `ValueError`, raised by `max(EF.values())` on an empty
sequence. -/
theorem C8_counterexample :
    computeSchedule ([] : List Task) ≠ Except.error PyError.emptyInputError := by
  intro h
  rw [show computeSchedule ([] : List Task)
      = Except.error PyError.valueError from rfl] at h
  injection h with h2
  exact PyError.noConfusion h2

/-- Claim C8, amended: on zero tasks the computation fails fatally — with a
`ValueError` from `max()` of the empty `EF.values()`, not a dedicated
`EmptyInputError` — and no `Schedule` is produced. -/
theorem C8_amended :
    computeSchedule ([] : List Task) = Except.error PyError.valueError ∧
    ∀ s : Schedule, computeSchedule ([] : List Task) ≠ Except.ok s := by
  refine ⟨rfl, ?_⟩
  intro s h
  rw [show computeSchedule ([] : List Task)
      = Except.error PyError.valueError from rfl] at h
  exact Except.noConfusion h

/-- Claim C9: the computation is deterministic — it is a pure function of
its input, so two invocations agree — and terminal ties are broken in
favour of the earlier terminal: the winning terminal is never preceded in
iteration order by a terminal with an equal `(total_duration, node_count)`
tuple, and no terminal strictly beats it. -/
theorem C9_deterministic :
    (∀ tasks : List Task, computeSchedule tasks = computeSchedule tasks) ∧
    (∀ (best : List (String × PathInfo)) (ends : List String),
      (selectCritical best ends = [] ∧
        ∀ t ∈ ends, keyGt (infoKey best t) (0, 0) = false) ∨
      ∃ l1 z l2, ends = l1 ++ z :: l2 ∧
        selectCritical best ends = ((dlookup best z).getD defaultInfo).path ∧
        (∀ q ∈ l1, infoKey best q ≠ infoKey best z) ∧
        (∀ q ∈ ends, keyGt (infoKey best q) (infoKey best z) = false)) := by
  refine ⟨fun _ => rfl, fun best ends => ?_⟩
  rcases selectCritical_spec best ends with ⟨h1, h2⟩ |
    ⟨l1, z, l2, hdec, hres, _, hl1, hall⟩
  · exact Or.inl ⟨h1, h2⟩
  · refine Or.inr ⟨l1, z, l2, hdec, hres, ?_, hall⟩
    intro q hq he
    have h1 := hl1 q hq
    rw [he] at h1
    rw [keyGt_self] at h1
    exact Bool.false_ne_true h1

/-- Claim C10 (implicit): when a task has several predecessors whose best
tuples are equal and lexicographically maximal, the predecessor appearing
earliest in the task's declared predecessor list is chosen and its path
extended: the chosen predecessor strictly beats every predecessor listed
before it (so no earlier one ties with it) and is beaten by none. -/
theorem C10_pred_tiebreak (tasks : List Task) (hv : ValidInput tasks) :
    ∀ t ∈ topoOrder tasks, predecessors tasks t ≠ [] →
      ∃ l1 p l2, predecessors tasks t = l1 ++ p :: l2 ∧
        (∀ q ∈ l1, keyGt (infoKey (bestInfo tasks (topoOrder tasks)) p)
            (infoKey (bestInfo tasks (topoOrder tasks)) q) = true ∧
          infoKey (bestInfo tasks (topoOrder tasks)) q
            ≠ infoKey (bestInfo tasks (topoOrder tasks)) p) ∧
        (∀ q ∈ predecessors tasks t,
          keyGt (infoKey (bestInfo tasks (topoOrder tasks)) q)
            (infoKey (bestInfo tasks (topoOrder tasks)) p) = false) ∧
        dlookup (bestInfo tasks (topoOrder tasks)) t = some
          ⟨((dlookup (bestInfo tasks (topoOrder tasks)) p).getD
              defaultInfo).total + duration tasks t,
            ((dlookup (bestInfo tasks (topoOrder tasks)) p).getD
              defaultInfo).count + 1,
            ((dlookup (bestInfo tasks (topoOrder tasks)) p).getD
              defaultInfo).path ++ [t]⟩ := by
  intro t ht hp
  have tf := topoFacts tasks hv
  obtain ⟨info, hlk, _, hcons⟩ := (bestInfo_dpInv tasks tf).eqs t ht
  obtain ⟨l1, p, l2, hdec, hl1, hall, hinfo⟩ := hcons hp
  refine ⟨l1, p, l2, hdec, ?_, hall, ?_⟩
  · intro q hq
    refine ⟨hl1 q hq, ?_⟩
    intro he
    have h1 := hl1 q hq
    rw [he] at h1
    rw [keyGt_self] at h1
    exact Bool.false_ne_true h1
  · rw [hlk, hinfo]

/-- Witness for C10 on the concrete input `A(2,[]), B(2,[]), D(1,[A,B])`,
where the two predecessors of `D` have equal best tuples `(2, 1)`. -/
theorem C10_pred_tiebreak_witness :
    ("D" ∈ topoOrder [⟨"A", 2, []⟩, ⟨"B", 2, []⟩, ⟨"D", 1, ["A", "B"]⟩] ∧
      predecessors [⟨"A", 2, []⟩, ⟨"B", 2, []⟩, ⟨"D", 1, ["A", "B"]⟩] "D"
        ≠ []) ∧
    ∃ l1 p l2,
      predecessors [⟨"A", 2, []⟩, ⟨"B", 2, []⟩, ⟨"D", 1, ["A", "B"]⟩] "D"
        = l1 ++ p :: l2 ∧
      (∀ q ∈ l1, keyGt (infoKey (bestInfo
          [⟨"A", 2, []⟩, ⟨"B", 2, []⟩, ⟨"D", 1, ["A", "B"]⟩]
          (topoOrder [⟨"A", 2, []⟩, ⟨"B", 2, []⟩, ⟨"D", 1, ["A", "B"]⟩])) p)
          (infoKey (bestInfo
            [⟨"A", 2, []⟩, ⟨"B", 2, []⟩, ⟨"D", 1, ["A", "B"]⟩]
            (topoOrder [⟨"A", 2, []⟩, ⟨"B", 2, []⟩, ⟨"D", 1, ["A", "B"]⟩]))
            q) = true ∧
        infoKey (bestInfo [⟨"A", 2, []⟩, ⟨"B", 2, []⟩, ⟨"D", 1, ["A", "B"]⟩]
          (topoOrder [⟨"A", 2, []⟩, ⟨"B", 2, []⟩, ⟨"D", 1, ["A", "B"]⟩])) q
          ≠ infoKey (bestInfo
            [⟨"A", 2, []⟩, ⟨"B", 2, []⟩, ⟨"D", 1, ["A", "B"]⟩]
            (topoOrder [⟨"A", 2, []⟩, ⟨"B", 2, []⟩, ⟨"D", 1, ["A", "B"]⟩]))
            p) ∧
      (∀ q ∈ predecessors
          [⟨"A", 2, []⟩, ⟨"B", 2, []⟩, ⟨"D", 1, ["A", "B"]⟩] "D",
        keyGt (infoKey (bestInfo
            [⟨"A", 2, []⟩, ⟨"B", 2, []⟩, ⟨"D", 1, ["A", "B"]⟩]
            (topoOrder [⟨"A", 2, []⟩, ⟨"B", 2, []⟩, ⟨"D", 1, ["A", "B"]⟩]))
            q)
          (infoKey (bestInfo
            [⟨"A", 2, []⟩, ⟨"B", 2, []⟩, ⟨"D", 1, ["A", "B"]⟩]
            (topoOrder [⟨"A", 2, []⟩, ⟨"B", 2, []⟩, ⟨"D", 1, ["A", "B"]⟩]))
            p) = false) ∧
      dlookup (bestInfo [⟨"A", 2, []⟩, ⟨"B", 2, []⟩, ⟨"D", 1, ["A", "B"]⟩]
        (topoOrder [⟨"A", 2, []⟩, ⟨"B", 2, []⟩, ⟨"D", 1, ["A", "B"]⟩])) "D"
        = some
          ⟨((dlookup (bestInfo
              [⟨"A", 2, []⟩, ⟨"B", 2, []⟩, ⟨"D", 1, ["A", "B"]⟩]
              (topoOrder [⟨"A", 2, []⟩, ⟨"B", 2, []⟩, ⟨"D", 1, ["A", "B"]⟩]))
              p).getD defaultInfo).total
              + duration [⟨"A", 2, []⟩, ⟨"B", 2, []⟩, ⟨"D", 1, ["A", "B"]⟩]
                "D",
            ((dlookup (bestInfo
              [⟨"A", 2, []⟩, ⟨"B", 2, []⟩, ⟨"D", 1, ["A", "B"]⟩]
              (topoOrder [⟨"A", 2, []⟩, ⟨"B", 2, []⟩, ⟨"D", 1, ["A", "B"]⟩]))
              p).getD defaultInfo).count + 1,
            ((dlookup (bestInfo
              [⟨"A", 2, []⟩, ⟨"B", 2, []⟩, ⟨"D", 1, ["A", "B"]⟩]
              (topoOrder [⟨"A", 2, []⟩, ⟨"B", 2, []⟩, ⟨"D", 1, ["A", "B"]⟩]))
              p).getD defaultInfo).path ++ ["D"]⟩ := by
  have hv : ValidInput [⟨"A", 2, []⟩, ⟨"B", 2, []⟩, ⟨"D", 1, ["A", "B"]⟩] :=
    ⟨by decide, by decide,
      acyclic_of_rank _ (fun t => if t = "D" then 1 else 0) (by decide)⟩
  exact ⟨⟨by decide, by decide⟩,
    C10_pred_tiebreak [⟨"A", 2, []⟩, ⟨"B", 2, []⟩, ⟨"D", 1, ["A", "B"]⟩] hv
      "D" (by decide) (by decide)⟩

end CritPath
